import Mathlib

/-!
Verification of the PuzzleCreator grid/wall generation pipeline (src/puzzle.py).

Shallow embedding: cells are coordinate pairs, the mutable grid is a structure
holding a wall-kind map, randomness is an explicit stream of naturals (one value
per draw of the process-wide generator), and the recursive reachability / walk
procedures of the source are fueled functional versions of the Python
recursions, threading the shared `seen` list as explicit state.
-/

/-- Wall kinds of `Cell.wall_types`.  The source's string tag 'None' is the
constructor `absent` here (renamed only to avoid clashing with `Option.none`);
'Normal', 'Interior' and 'Extra' keep their names. -/
inductive WallKind where
  | absent
  | normal
  | interior
  | extra
deriving DecidableEq, Repr

/-- Directions, keyed as in `Cell.barriers`. -/
inductive Dir where
  | N
  | S
  | E
  | W
deriving DecidableEq, Repr, Fintype

/-- `Cell.wall_compliments`: the complementary direction of a shared wall. -/
def compliment : Dir → Dir
  | Dir.N => Dir.S
  | Dir.S => Dir.N
  | Dir.E => Dir.W
  | Dir.W => Dir.E

/-- A cell is identified by its (x, y) coordinates (Python `Cell` objects are
unique per coordinate and compared by identity). -/
abbrev Pos := Nat × Nat

/-- The grid: `width`, `height` and the wall map of every cell
(`Cell.barriers` of the cell at (x, y) is `walls x y`). -/
structure Grid where
  width : Nat
  height : Nat
  walls : Nat → Nat → Dir → WallKind

/-- `Grid.__init__`: every cell starts surrounded by Normal walls. -/
def initGrid (w h : Nat) : Grid := ⟨w, h, fun _ _ _ => WallKind.normal⟩

/-- `Cell.has_wall`. -/
def has_wall (g : Grid) (p : Pos) (d : Dir) : Bool :=
  g.walls p.1 p.2 d != WallKind.absent

/-- `Cell.get_wall_type`. -/
def get_wall_type (g : Grid) (p : Pos) (d : Dir) : WallKind := g.walls p.1 p.2 d

/-- `Cell.is_completely_disconnected`: normal walls on all four sides
(the Python code filters the four barrier values and compares the count to 4). -/
def is_completely_disconnected (g : Grid) (p : Pos) : Bool :=
  ([Dir.N, Dir.S, Dir.E, Dir.W].filter
    (fun d => g.walls p.1 p.2 d == WallKind.normal)).length == 4

/-- Point update of one directional wall entry of one cell. -/
def setWallKind (g : Grid) (p : Pos) (d : Dir) (k : WallKind) : Grid :=
  ⟨g.width, g.height,
   fun x y d2 => if x = p.1 ∧ y = p.2 ∧ d2 = d then k else g.walls x y d2⟩

/-- `Cell.remove_wall`: both sides of the shared wall become 'None' (absent). -/
def remove_wall (g : Grid) (p q : Pos) (d : Dir) : Grid :=
  setWallKind (setWallKind g p d WallKind.absent) q (compliment d) WallKind.absent

/-- `Cell.set_wall`: sets both sides of the shared wall to `k` and returns the
prior wall type on `p`'s side alongside the updated grid. -/
def set_wall (g : Grid) (p q : Pos) (d : Dir) (k : WallKind) : WallKind × Grid :=
  (g.walls p.1 p.2 d, setWallKind (setWallKind g p d k) q (compliment d) k)

/-- `Grid.cell_at`: index into `grid_map`; out-of-range coordinates raise in
Python (IndexError), modelled by `Option.none`. -/
def cell_at (g : Grid) (x y : Nat) : Option Pos :=
  if x < g.width ∧ y < g.height then some (x, y) else none

/-- `Grid.find_neighbor` (and the per-direction bound check of
`Grid.get_valid_neighbors`): the in-bounds neighbor of `p` in direction `d`,
if any.  Python checks `0 <= x2 < width and 0 <= y2 < height`. -/
def find_neighbor (g : Grid) (p : Pos) : Dir → Option Pos
  | Dir.W => if 1 ≤ p.1 ∧ p.1 - 1 < g.width ∧ p.2 < g.height
             then some (p.1 - 1, p.2) else none
  | Dir.E => if p.1 + 1 < g.width ∧ p.2 < g.height
             then some (p.1 + 1, p.2) else none
  | Dir.S => if p.2 + 1 < g.height ∧ p.1 < g.width
             then some (p.1, p.2 + 1) else none
  | Dir.N => if 1 ≤ p.2 ∧ p.2 - 1 < g.height ∧ p.1 < g.width
             then some (p.1, p.2 - 1) else none

/-- `Grid.get_valid_neighbors`, in the source's fixed iteration order
W, E, S, N. -/
def get_valid_neighbors (g : Grid) (p : Pos) : List (Dir × Pos) :=
  [Dir.W, Dir.E, Dir.S, Dir.N].filterMap
    (fun d => (find_neighbor g p d).map (fun q => (d, q)))

/-- `Grid.get_directly_reachable_neighbors`: valid neighbors not blocked by a
wall on `p`'s side. -/
def get_directly_reachable_neighbors (g : Grid) (p : Pos) : List (Dir × Pos) :=
  (get_valid_neighbors g p).filter (fun n => !(has_wall g p n.1))

/-- `Grid.find_unused_neighbors`: valid neighbors that are completely
disconnected. -/
def find_unused_neighbors (g : Grid) (p : Pos) : List (Dir × Pos) :=
  (get_valid_neighbors g p).filter (fun n => is_completely_disconnected g n.2)

/-- `Grid.all_reachable_recursive`.  The Python recursion shares one mutable
`seen` list across all recursive calls; here the list is threaded as state and
returned next to the result list.  The fuel argument only bounds the recursion
depth (the Python depth is bounded by the number of cells, and every lemma
below supplies enough fuel for the recursion never to be cut off). -/
def all_reachable_recursive (g : Grid) : Nat → Pos → List Pos → List Pos × List Pos
  | 0, cell, seen => ([cell], seen)
  | fuel + 1, cell, seen =>
      let r := (get_directly_reachable_neighbors g cell).foldl
        (fun acc n =>
          if n.2 ∈ acc.2 then acc
          else
            let r1 := all_reachable_recursive g fuel n.2 (acc.2 ++ [n.2])
            (acc.1 ++ r1.1, r1.2))
        ([], seen)
      (cell :: r.1, r.2)

/-- `Grid.all_reachable`: the recursion starts with `seen = [cell]`. -/
def all_reachable (g : Grid) (p : Pos) : List Pos :=
  (all_reachable_recursive g (g.width * g.height) p [p]).1

/-- `Grid.is_reachable`: membership of `c2` in `all_reachable(c1)`. -/
def is_reachable (g : Grid) (p q : Pos) : Bool :=
  (all_reachable g p).contains q

/-- One `<x, y, direction, next_x, next_y>` entry of `Grid.dfs_walk`. -/
structure WalkEdge where
  x : Nat
  y : Nat
  d : Dir
  nx : Nat
  ny : Nat
deriving DecidableEq, Repr

/-- `Grid.dfs_walk_recursive`, with the shared `seen` list threaded as state.
Unlike `all_reachable`, the caller seeds `seen` with the empty list. -/
def dfs_walk_recursive (g : Grid) : Nat → Pos → List Pos → List WalkEdge × List Pos
  | 0, _, seen => ([], seen)
  | fuel + 1, cell, seen =>
      if seen.length = g.width * g.height then ([], seen)
      else
        (get_directly_reachable_neighbors g cell).foldl
          (fun acc n =>
            if n.2 ∈ acc.2 then acc
            else
              let r1 := dfs_walk_recursive g fuel n.2 (acc.2 ++ [n.2])
              (acc.1 ++ ⟨cell.1, cell.2, n.1, n.2.1, n.2.2⟩ :: r1.1, r1.2))
          ([], seen)

/-- `Grid.dfs_walk`: looks the start cell up with `cell_at` (an out-of-bounds
start raises in Python) and runs the recursion with `seen = []`. -/
def dfs_walk (g : Grid) (x y : Nat) : Option (List WalkEdge) :=
  match cell_at g x y with
  | some p => some (dfs_walk_recursive g (g.width * g.height + 1) p []).1
  | none => none

/-- List of all cell coordinates in the source's row-major iteration order
(`for y in range(height): for x in range(width)`). -/
def rowMajor (w h : Nat) : List Pos :=
  (List.range h).flatMap (fun y => (List.range w).map (fun x => (x, y)))

/-- A draw of `random.choice` / `random.randint` is one value of the stream.
`randint a b` (inclusive bounds) raises ValueError in Python when `a > b`,
modelled by `Option.none`. -/
def randint (rng : Nat → Nat) (k a b : Nat) : Option Nat :=
  if a ≤ b then some (a + rng k % (b - a + 1)) else none

/-- The loop state of `Grid.make_all_cells_reachable`: the grid, the backtrack
stack (head is the top), the current cell, the visited count, and the position
`k` in the random stream. -/
structure CarveState where
  g : Grid
  stack : List Pos
  current : Pos
  visited : Nat
  k : Nat

/-- The `while total_visited < n` loop of `Grid.make_all_cells_reachable`.
`random.choice(neighbors)` is drawn as `rng k % neighbors.length`; popping an
empty backtrack stack raises in Python, modelled by `Option.none`; the fuel is
an artifact of the embedding (the wrapper passes enough for the loop never to
be cut off, as proved below). -/
def carveLoop (rng : Nat → Nat) : Nat → CarveState → Option CarveState
  | 0, _ => none
  | fuel + 1, s =>
    if s.visited < s.g.width * s.g.height then
      match find_unused_neighbors s.g s.current with
      | [] =>
        match s.stack with
        | [] => none
        | c :: rest => carveLoop rng fuel ⟨s.g, rest, c, s.visited, s.k⟩
      | n0 :: ns =>
        let neighbors := n0 :: ns
        let pick := neighbors.getD (rng s.k % neighbors.length) n0
        let g2 := remove_wall s.g s.current pick.2 pick.1
        carveLoop rng fuel
          ⟨g2, s.current :: s.stack, pick.2, s.visited + 1, s.k + 1⟩
    else some s

/-- `Grid.make_all_cells_reachable` on the fresh `w × h` grid: the start cell
is first looked up with `cell_at(0, 0)` — which raises IndexError in Python
when the grid has no cells (W = 0 or H = 0), modelled by `Option.none` — then
the loop runs with one visited cell, at position `k` of the random stream.
Returns the carved grid and the next stream position. -/
def make_all_cells_reachable (rng : Nat → Nat) (w h k : Nat) :
    Option (Grid × Nat) :=
  (cell_at (initGrid w h) 0 0).bind (fun c =>
    (carveLoop rng (2 * (w * h) + 1) ⟨initGrid w h, [], c, 1, k⟩).map
      (fun s => (s.g, s.k)))

/-- The module-level walk-partition loop (`while current_index < len(walk)`).
Each iteration draws `cut_point = randint(mincomponent, maxcomponent)`; if
`current_index + cut_point + 3 >= len(walk)` it breaks, otherwise it looks the
two endpoint cells of `walk[current_index + cut_point]` up (out-of-bounds
coordinates would raise in Python, modelled by `Option.none`), sets that wall
to 'Extra' and advances by `cut_point`. -/
def partitionLoop (rng : Nat → Nat) (walk : List WalkEdge) (a b : Nat) :
    Nat → Nat → Nat → Grid → Option (Grid × Nat)
  | 0, _, _, _ => none
  | fuel + 1, ci, k, g =>
    if ci < walk.length then
      match randint rng k a b with
      | none => none
      | some cut =>
        if walk.length ≤ ci + cut + 3 then some (g, k + 1)
        else
          let e := walk.getD (ci + cut) ⟨0, 0, Dir.N, 0, 0⟩
          match cell_at g e.x e.y, cell_at g e.nx e.ny with
          | some p, some q =>
              partitionLoop rng walk a b fuel (ci + cut) (k + 1)
                (set_wall g p q e.d WallKind.extra).2
          | _, _ => none
    else some (g, k)

/-- The body of the neighbor loop inside `Grid.optimize_small_pieces`: if the
neighbor is not reachable and its reachable count beats `count_smallest`, it
becomes the new `(cell_smallest, direction_smallest, count_smallest)`. -/
def suStep (g : Grid) (c : Pos) (acc : Option (Pos × Dir) × Nat)
    (n : Dir × Pos) : Option (Pos × Dir) × Nat :=
  if !(is_reachable g c n.2) then
    if (all_reachable g n.2).length < acc.2 then
      (some (n.2, n.1), (all_reachable g n.2).length)
    else acc
  else acc

/-- The accumulator loop inside `Grid.optimize_small_pieces`: the running
`(cell_smallest, direction_smallest)` pair together with `count_smallest`
(initially `None, None, 10000`), folded over the valid neighbors of `c`. -/
def smallest_unreachable (g : Grid) (c : Pos) : Option (Pos × Dir) × Nat :=
  (get_valid_neighbors g c).foldl (suStep g c) (none, 10000)

/-- The per-cell body of `Grid.optimize_small_pieces`.  When the smallest-count
search finds no cell, the Python code dereferences `None` (AttributeError),
modelled by `Option.none`. -/
def small_step (g : Grid) (thr : Nat) (c : Pos) : Option Grid :=
  if (all_reachable g c).length < thr - 1 then
    match smallest_unreachable g c with
    | (some qd, _) => some (remove_wall g c qd.1 qd.2)
    | (none, _) => none
  else some g

/-- `Grid.optimize_small_pieces` (Pass A), over all cells in row-major
order. -/
def optimize_small_pieces (g : Grid) (thr : Nat) : Option Grid :=
  (rowMajor g.width g.height).foldlM (fun g2 c => small_step g2 thr c) g

/-- `Grid.is_square`: the bounding box of the cells spans exactly two columns
and two rows.  (Python's `min`/`max` raise on an empty list; the function is
only called on lists of length 4, and the empty case is never hit.) -/
def is_square (cells : List Pos) : Bool :=
  match cells with
  | [] => false
  | c :: rest =>
      let xs := (c :: rest).map Prod.fst
      let ys := (c :: rest).map Prod.snd
      (xs.foldl Nat.min c.1 + 1 == xs.foldl Nat.max c.1) &&
      (ys.foldl Nat.min c.2 + 1 == ys.foldl Nat.max c.2)

/-- The per-cell body of `Grid.optimize_square_pieces`: on a 2×2 reachable set,
draw `randint(0, 3)`, take that direction out of `wall_compliments.keys()`
(insertion order N, S, E, W) and, when a neighbor exists there, remove the
wall. -/
def square_step (rng : Nat → Nat) (st : Grid × Nat) (c : Pos) : Grid × Nat :=
  let g := st.1
  let k := st.2
  let reach := all_reachable g c
  if reach.length == 4 && is_square reach then
    let d := [Dir.N, Dir.S, Dir.E, Dir.W].getD (rng k % 4) Dir.N
    match find_neighbor g c d with
    | some q => (remove_wall g c q d, k + 1)
    | none => (g, k + 1)
  else (g, k)

/-- `Grid.optimize_square_pieces` (Pass B). -/
def optimize_square_pieces (rng : Nat → Nat) (g : Grid) (k : Nat) :
    Grid × Nat :=
  (rowMajor g.width g.height).foldl (square_step rng) (g, k)

/-- The bounded `while attempts < 20` retry loop inside
`Grid.optimize_too_big_pieces`, for the cell `c` whose starting reachable
count is `starting`.  `reach` is the Python variable `reachable_cells`, which
is reassigned to the freshly computed (possibly smaller) set after every
tentative wall addition, including rejected ones.  The two size comparisons
are Python int comparisons, taken over `Int`. -/
def big_attempt (rng : Nat → Nat) (thr : Nat) (c : Pos) (starting : Nat) :
    Nat → Grid → List Pos → Nat → Grid × Nat
  | 0, g, _, k => (g, k)
  | att + 1, g, reach, k =>
    let rc := reach.getD (rng k % reach.length) c
    let d := [Dir.N, Dir.S, Dir.E, Dir.W].getD (rng (k + 1) % 4) Dir.N
    let k2 := k + 2
    match find_neighbor g rc d with
    | none => big_attempt rng thr c starting att g reach k2
    | some adj =>
        let pr := set_wall g rc adj d WallKind.normal
        let reach2 := all_reachable pr.2 c
        if (reach2.length : Int) ≤ (thr : Int) - 1 ∨
           (starting : Int) - (reach2.length : Int) ≤ (thr : Int) - 1 then
          big_attempt rng thr c starting att (set_wall pr.2 rc adj d pr.1).2
            reach2 k2
        else if reach2.length ≠ starting then (pr.2, k2)
        else big_attempt rng thr c starting att pr.2 reach2 k2

/-- The per-cell body of `Grid.optimize_too_big_pieces`. -/
def big_step (rng : Nat → Nat) (thr mx : Nat) (st : Grid × Nat) (c : Pos) :
    Grid × Nat :=
  let g := st.1
  let k := st.2
  let reach := all_reachable g c
  if mx + 3 < reach.length then big_attempt rng thr c reach.length 20 g reach k
  else (g, k)

/-- `Grid.optimize_too_big_pieces` (Pass C). -/
def optimize_too_big_pieces (rng : Nat → Nat) (g : Grid) (thr mx k : Nat) :
    Grid × Nat :=
  (rowMajor g.width g.height).foldl (big_step rng thr mx) (g, k)

/-- The inner neighbor loop of `Grid.find_interior_walls` at cell `c`. -/
def interior_step (g : Grid) (c : Pos) : Grid :=
  (get_valid_neighbors g c).foldl
    (fun g2 n =>
      if has_wall g2 c n.1 && is_reachable g2 c n.2 then
        (set_wall g2 c n.2 n.1 WallKind.interior).2
      else g2)
    g

/-- `Grid.find_interior_walls`. -/
def find_interior_walls (g : Grid) : Grid :=
  (rowMajor g.width g.height).foldl interior_step g

/-- The module-level generation pipeline of src/puzzle.py after argument
parsing: carve, walk, partition, the three optimizer passes, interior-wall
classification.  A Python exception anywhere (out-of-bounds start, ValueError
of `randint`, the unguarded `None` of Pass A, an empty pop) yields `none`. -/
def pipeline (rng : Nat → Nat) (w h sx sy mn mx : Nat) : Option Grid :=
  match make_all_cells_reachable rng w h 0 with
  | none => none
  | some (g1, k1) =>
    match dfs_walk g1 sx sy with
    | none => none
    | some walk =>
      match partitionLoop rng walk mn mx (walk.length + 1) 0 k1 g1 with
      | none => none
      | some (g2, k2) =>
        match optimize_small_pieces g2 mn with
        | none => none
        | some g3 =>
          let r4 := optimize_square_pieces rng g3 k2
          let r5 := optimize_too_big_pieces rng r4.1 mn mx r4.2
          some (find_interior_walls r5.1)

/-- The grids the pipeline passes through, in order: the fresh grid, then the
grid after each stage that ran (carving, partitioning, Pass A, Pass B, Pass C,
interior-wall classification).  A stage that fails ends the list. -/
def pipelineStages (rng : Nat → Nat) (w h sx sy mn mx : Nat) : List Grid :=
  let g0 := initGrid w h
  match make_all_cells_reachable rng w h 0 with
  | none => [g0]
  | some (g1, k1) =>
    match dfs_walk g1 sx sy with
    | none => [g0, g1]
    | some walk =>
      match partitionLoop rng walk mn mx (walk.length + 1) 0 k1 g1 with
      | none => [g0, g1]
      | some (g2, k2) =>
        match optimize_small_pieces g2 mn with
        | none => [g0, g1, g2]
        | some g3 =>
          let r4 := optimize_square_pieces rng g3 k2
          let r5 := optimize_too_big_pieces rng r4.1 mn mx r4.2
          [g0, g1, g2, g3, r4.1, r5.1, find_interior_walls r5.1]

/-- Modelled from the spec: the `random` module is external to src/ (like the
`ezdxf` renderer).  The spec requires one process-wide pseudo-random source
seeded once at start, so the stream of draws is some fixed deterministic
function of the seed; any such function witnesses the spec's requirement. -/
def prngStream (seed : Nat) : Nat → Nat :=
  fun k => (seed * 1103515245 + k * 12345 + 12345) % 2147483648

/-- The whole program for a given seed: `random.seed(seed)` followed by the
pipeline. -/
def runPipeline (seed w h sx sy mn mx : Nat) : Option Grid :=
  pipeline (prngStream seed) w h sx sy mn mx

/-- Membership of a coordinate pair in the grid. -/
abbrev inBounds (g : Grid) (p : Pos) : Prop := p.1 < g.width ∧ p.2 < g.height

/-- The number of shared (interior) walls of the grid whose kind is 'None'
(absent), each unordered adjacent pair counted once, via its E/S entry on the
W/N side. -/
def absentSharedCount (g : Grid) : Nat :=
  ((Finset.range g.width) ×ˢ (Finset.range g.height)).sum (fun p =>
    (if p.1 + 1 < g.width ∧ g.walls p.1 p.2 Dir.E = WallKind.absent then 1 else 0) +
    (if p.2 + 1 < g.height ∧ g.walls p.1 p.2 Dir.S = WallKind.absent then 1 else 0))

/-- Wall symmetry: every cell's wall toward a valid neighbor carries the same
kind as the neighbor's wall back in the complementary direction. -/
abbrev WallSym (g : Grid) : Prop :=
  ∀ x, x < g.width → ∀ y, y < g.height → ∀ d : Dir,
    ∀ q ∈ find_neighbor g (x, y) d,
      g.walls x y d = g.walls q.1 q.2 (compliment d)

/-- One step of movement between adjacent cells not blocked by a wall
(the relation underlying the `reachableSet` of the spec). -/
def Adj (g : Grid) (p q : Pos) : Prop :=
  ∃ d, find_neighbor g p d = some q ∧ g.walls p.1 p.2 d = WallKind.absent

/-- Transitive reachability generated by `Adj`. -/
def Reach (g : Grid) : Pos → Pos → Prop := Relation.ReflTransGen (Adj g)

/-- The set of cells the carver has visited: an in-bounds cell that is no
longer completely disconnected, or the start cell (0, 0), which is counted
visited from the outset. -/
def VisitedSet (g : Grid) : Finset Pos :=
  (Finset.range g.width ×ˢ Finset.range g.height).filter
    (fun p => is_completely_disconnected g p = false ∨ p = (0, 0))

/-- The loop invariant of `make_all_cells_reachable` on a `w × h` grid:
the dimensions are fixed, the walls stay symmetric, the current cell and the
backtrack stack are visited, the visited counter equals the number of visited
cells, exactly `visited − 1` shared walls are absent, every visited cell is
reachable from (0, 0), a visited cell that is neither current nor stacked has
no unvisited neighbor, and either the start cell has been carved into or the
loop is still in its initial state. -/
def CarveInv (w h : Nat) (s : CarveState) : Prop :=
  s.g.width = w ∧ s.g.height = h ∧ WallSym s.g ∧
  s.current ∈ VisitedSet s.g ∧
  (∀ p ∈ s.stack, p ∈ VisitedSet s.g) ∧
  s.visited = (VisitedSet s.g).card ∧
  absentSharedCount s.g + 1 = s.visited ∧
  (∀ p ∈ VisitedSet s.g, Reach s.g (0, 0) p) ∧
  (∀ p ∈ VisitedSet s.g, p ∉ s.current :: s.stack →
    ∀ (d : Dir) (q : Pos), find_neighbor s.g p d = some q →
      q ∈ VisitedSet s.g) ∧
  (is_completely_disconnected s.g (0, 0) = false ∨
    (s.current = (0, 0) ∧ s.stack = [] ∧ s.visited = 1))

/-- Plain grid adjacency: `q` is a valid neighbor of `p`, walls ignored
(the graph in which `get_valid_neighbors` lists the edges). -/
def GAdj (g : Grid) (p q : Pos) : Prop :=
  ∃ d, find_neighbor g p d = some q

/-- Transitive closure of plain grid adjacency. -/
def GReach (g : Grid) : Pos → Pos → Prop := Relation.ReflTransGen (GAdj g)

/-- The all-zero random stream (used for concrete runs). -/
def rngZ : Nat → Nat := fun _ => 0

/-- The all-two random stream (used for concrete runs). -/
def rng2 : Nat → Nat := fun _ => 2

/-- A random stream drawing 0 then 2 (used for concrete runs of Pass C). -/
def rngC8 : Nat → Nat := fun n => if n = 1 then 2 else 0

/-- A 2×1 grid whose single shared wall has been removed: the smallest
spanning-tree grid. -/
def gT2 : Grid :=
  ⟨2, 1, fun x y d =>
    if (x = 0 ∧ y = 0 ∧ d = Dir.E) ∨ (x = 1 ∧ y = 0 ∧ d = Dir.W)
    then WallKind.absent else WallKind.normal⟩

/-- A 2×2 grid with exactly one shared wall removed, between (0,0) and (1,0):
components { (0,0), (1,0) } of size 2, { (0,1) } and { (1,1) } of size 1. -/
def gEx3 : Grid :=
  ⟨2, 2, fun x y d =>
    if (x = 0 ∧ y = 0 ∧ d = Dir.E) ∨ (x = 1 ∧ y = 0 ∧ d = Dir.W)
    then WallKind.absent else WallKind.normal⟩

/-- A fully-connected 2×2 grid: all four shared walls absent, border walls
normal. -/
def gFull4 : Grid :=
  ⟨2, 2, fun x y d =>
    if (x = 0 ∧ y = 0 ∧ (d = Dir.E ∨ d = Dir.S)) ∨
       (x = 1 ∧ y = 0 ∧ (d = Dir.W ∨ d = Dir.S)) ∨
       (x = 0 ∧ y = 1 ∧ (d = Dir.N ∨ d = Dir.E)) ∨
       (x = 1 ∧ y = 1 ∧ (d = Dir.N ∨ d = Dir.W))
    then WallKind.absent else WallKind.normal⟩

/-- A 2×2 grid forming one 2×2 region in which the shared wall between (0,0)
and (1,0) carries kind 'Extra' (the two cells stay mutually reachable through
the south detour). -/
def gSq : Grid :=
  ⟨2, 2, fun x y d =>
    if (x = 0 ∧ y = 0 ∧ d = Dir.E) ∨ (x = 1 ∧ y = 0 ∧ d = Dir.W)
    then WallKind.extra
    else if (x = 0 ∧ y = 0 ∧ d = Dir.S) ∨
       (x = 1 ∧ y = 0 ∧ d = Dir.S) ∨
       (x = 0 ∧ y = 1 ∧ (d = Dir.N ∨ d = Dir.E)) ∨
       (x = 1 ∧ y = 1 ∧ (d = Dir.N ∨ d = Dir.W))
    then WallKind.absent else WallKind.normal⟩

/-- A ten-edge straight walk along an 11×1 grid, used to exercise the
partition loop. -/
def cWalk : List WalkEdge :=
  (List.range 10).map (fun i => ⟨i, 0, Dir.E, i + 1, 0⟩)

/-!
Theorems.  First the basic facts about the embedded operations, then the
claim theorems.
-/

theorem Grid.ext' : ∀ {g1 g2 : Grid}, g1.width = g2.width → g1.height = g2.height →
    g1.walls = g2.walls → g1 = g2 := by
  intro g1 g2 hw hh hwl
  cases g1
  cases g2
  simp_all

theorem setWallKind_width (g : Grid) (p : Pos) (d : Dir) (k : WallKind) :
    (setWallKind g p d k).width = g.width := rfl

theorem setWallKind_height (g : Grid) (p : Pos) (d : Dir) (k : WallKind) :
    (setWallKind g p d k).height = g.height := rfl

theorem remove_wall_width (g : Grid) (p q : Pos) (d : Dir) :
    (remove_wall g p q d).width = g.width := rfl

theorem remove_wall_height (g : Grid) (p q : Pos) (d : Dir) :
    (remove_wall g p q d).height = g.height := rfl

theorem set_wall_width (g : Grid) (p q : Pos) (d : Dir) (k : WallKind) :
    ((set_wall g p q d k).2).width = g.width := rfl

theorem set_wall_height (g : Grid) (p q : Pos) (d : Dir) (k : WallKind) :
    ((set_wall g p q d k).2).height = g.height := rfl

theorem carveLoop_dims (rng : Nat → Nat) : ∀ (fuel : Nat) (s s' : CarveState),
    carveLoop rng fuel s = some s' →
    s'.g.width = s.g.width ∧ s'.g.height = s.g.height := by
  intro fuel
  induction fuel with
  | zero => intro s s' h; simp [carveLoop] at h
  | succ n ih =>
    intro s s' h
    rw [carveLoop] at h
    split at h
    · split at h
      · split at h
        · exact absurd h (by simp)
        · have h2 := ih _ _ h
          simpa using h2
      · dsimp only at h
        have h2 := ih _ _ h
        simpa [remove_wall_width, remove_wall_height] using h2
    · cases h
      exact ⟨rfl, rfl⟩

theorem cell_at_zero_pos (w h : Nat) (hw : 0 < w) (hh : 0 < h) :
    cell_at (initGrid w h) 0 0 = some (0, 0) := by
  unfold cell_at
  rw [if_pos]
  exact ⟨hw, hh⟩

theorem cell_at_zero_none (w h : Nat) (hwh : w < 1 ∨ h < 1) :
    cell_at (initGrid w h) 0 0 = none := by
  unfold cell_at
  rw [if_neg]
  intro hc
  have hw : (0 : Nat) < w := hc.1
  have hh : (0 : Nat) < h := hc.2
  omega

theorem cell_at_zero_eq {w h : Nat} {c : Pos}
    (hca : cell_at (initGrid w h) 0 0 = some c) : c = (0, 0) := by
  unfold cell_at at hca
  split at hca
  · injection hca with h2
    exact h2.symm
  · exact absurd hca (by simp)

theorem make_all_cells_reachable_dims (rng : Nat → Nat) (w h k : Nat)
    (g : Grid) (k' : Nat) (hm : make_all_cells_reachable rng w h k = some (g, k')) :
    g.width = w ∧ g.height = h := by
  unfold make_all_cells_reachable at hm
  cases hca : cell_at (initGrid w h) 0 0 with
  | none =>
    rw [hca] at hm
    exact absurd hm (by simp)
  | some c =>
    have hc0 : c = (0, 0) := cell_at_zero_eq hca
    subst hc0
    rw [hca] at hm
    have hm2 : (carveLoop rng (2 * (w * h) + 1)
        ⟨initGrid w h, [], (0, 0), 1, k⟩).map (fun s => (s.g, s.k))
        = some (g, k') := hm
    cases hc : carveLoop rng (2 * (w * h) + 1) ⟨initGrid w h, [], (0, 0), 1, k⟩ with
    | none => rw [hc] at hm2; simp at hm2
    | some s =>
      rw [hc] at hm2
      simp at hm2
      obtain ⟨h1, _⟩ := hm2
      have := carveLoop_dims rng _ _ _ hc
      rw [← h1]
      exact this

/-- C2: the claim says `dfs_walk` visits every cell exactly once and returns
exactly W×H − 1 edge tuples.  On the smallest spanning-tree grid `gT2`
(2×1, the single shared wall absent — one Absent wall = W×H − 1, all cells
mutually reachable) the code returns W×H = 2 edges, the second of which walks
back into the start cell: `seen` starts empty in `dfs_walk` (unlike
`all_reachable`), so the start is re-entered through a back-edge. -/
theorem c2_dfs_walk_emits_n_edges :
    absentSharedCount gT2 = gT2.width * gT2.height - 1 ∧
    (∀ p ∈ rowMajor 2 1, ∀ q ∈ rowMajor 2 1, is_reachable gT2 p q = true) ∧
    dfs_walk gT2 0 0 = some [⟨0, 0, Dir.E, 1, 0⟩, ⟨1, 0, Dir.W, 0, 0⟩] ∧
    (dfs_walk gT2 0 0).map List.length = some (gT2.width * gT2.height) := by
  decide

/-- C4: on the fully-connected 2×2 grid with threshold 10, cell (0,0)
triggers Pass A's small-piece condition (4 < 10 − 1) while every valid
neighbor is already reachable; the code then dereferences the never-assigned
`cell_smallest = None` and raises AttributeError (here: the pass returns
`none`) instead of being a no-op. -/
theorem c4_pass_a_crashes_without_guard :
    (all_reachable gFull4 (0, 0)).length < 10 - 1 ∧
    (∀ n ∈ get_valid_neighbors gFull4 (0, 0), is_reachable gFull4 (0, 0) n.2 = true) ∧
    (optimize_small_pieces gFull4 10).isNone = true := by
  decide

/-- C3 counterexample: on `gEx3` with minComponentSize 3, cell (0,0) has a
reachable set of size 2 < 3, yet Pass A does not act on it (the code's
trigger is `< 3 - 1`), and after the pass completes the cell still has
reachable-set size 2 < 3 — refuting both the claimed trigger threshold and
the claimed postcondition. -/
theorem c3_counterexample :
    (all_reachable gEx3 (0, 0)).length = 2 ∧ (2 : Nat) < 3 ∧
    (optimize_small_pieces gEx3 3).map (fun g => g.walls 0 0 Dir.S) =
      some WallKind.normal ∧
    (optimize_small_pieces gEx3 3).map (fun g => (all_reachable g (0, 0)).length) =
      some 2 := by
  decide

/-- C5 counterexample: with min = max = 5 on a ten-edge walk, the first cut
would leave 10 − 5 = 5 < 5 + 3 edges for the final segment, so the claim
requires the loop to stop early without marking; the code instead marks the
wall of walk edge 5 as 'Extra' (its break check uses the constant 3, not
minComponentSize + 3). -/
theorem c5_counterexample :
    cWalk.length - (0 + 5) < 5 + 3 ∧
    (partitionLoop rngZ cWalk 5 5 11 0 0 (initGrid 11 1)).map
      (fun r => r.1.walls 5 0 Dir.E) = some WallKind.extra := by
  decide

/-- C9 counterexample: with W = H = 2, min = 1 ≤ max = 2 and the
out-of-bounds walk start (5, 0), the pipeline is not rejected before
generation begins: the carve stage runs (the second pipeline stage differs
from the fresh all-Normal grid) and only then does the walk stage fail. -/
theorem c9_counterexample :
    (pipeline rngZ 2 2 5 0 1 2).isNone = true ∧
    (pipelineStages rngZ 2 2 5 0 1 2).length = 2 ∧
    ((pipelineStages rngZ 2 2 5 0 1 2).getD 1 (initGrid 2 2)).walls 0 0 Dir.E =
      WallKind.absent ∧
    (initGrid 2 2).walls 0 0 Dir.E = WallKind.normal := by
  decide

/-- C7: the generation pipeline is deterministic — two runs on identical
width, height, seed, walk start and component bounds produce identical final
wall maps.  In the embedding the whole pipeline, including the seeded
pseudo-random stream, is a pure function of exactly these six parameters, so
equal parameters give equal results (and there is no other input: the
output filename plays no part in generation). -/
theorem c7_determinism (w h seed sx sy mn mx w2 h2 seed2 sx2 sy2 mn2 mx2 : Nat)
    (hw : w = w2) (hh : h = h2) (hs : seed = seed2) (hx : sx = sx2)
    (hy : sy = sy2) (hm : mn = mn2) (hM : mx = mx2) :
    runPipeline seed w h sx sy mn mx = runPipeline seed2 w2 h2 sx2 sy2 mn2 mx2 := by
  subst hw hh hs hx hy hm hM
  rfl

theorem c7_determinism_witness :
    (2 : Nat) = 2 ∧ runPipeline 0 2 2 0 0 1 2 = runPipeline 0 2 2 0 0 1 2 :=
  ⟨rfl, c7_determinism 2 2 0 0 0 1 2 2 2 0 0 0 1 2 rfl rfl rfl rfl rfl rfl rfl⟩

/-- C5 (amended): one iteration of the walk-partition loop draws L uniformly
from [mincomponent, maxcomponent] and stops early exactly when
currentIndex + L + 3 ≥ len(walk) — i.e. when 3 or fewer edges would remain
for the final segment, a constant independent of minComponentSize; otherwise
it sets the wall of walk-edge[currentIndex + L] to kind 'Extra' on both cells
and advances currentIndex by L. -/
theorem c5_amended_partition_step (rng : Nat → Nat) (walk : List WalkEdge)
    (a b fuel ci k : Nat) (g : Grid) (cut : Nat) (e : WalkEdge)
    (h1 : ci < walk.length)
    (h2 : randint rng k a b = some cut)
    (he : walk.getD (ci + cut) ⟨0, 0, Dir.N, 0, 0⟩ = e) :
    (walk.length ≤ ci + cut + 3 →
      partitionLoop rng walk a b (fuel + 1) ci k g = some (g, k + 1)) ∧
    (ci + cut + 3 < walk.length → ∀ p q,
      cell_at g e.x e.y = some p → cell_at g e.nx e.ny = some q →
      partitionLoop rng walk a b (fuel + 1) ci k g =
        partitionLoop rng walk a b fuel (ci + cut) (k + 1)
          (set_wall g p q e.d WallKind.extra).2) := by
  constructor
  · intro hstop
    rw [partitionLoop, if_pos h1, h2]
    simp only
    rw [if_pos hstop]
  · intro hgo p q hp hq
    rw [partitionLoop, if_pos h1, h2]
    simp only
    rw [if_neg (by omega : ¬ walk.length ≤ ci + cut + 3)]
    simp only [he, hp, hq]

theorem c5_amended_witness :
    ((0 : Nat) < cWalk.length ∧ randint rngZ 0 5 5 = some 5 ∧
     cWalk.getD (0 + 5) ⟨0, 0, Dir.N, 0, 0⟩ = ⟨5, 0, Dir.E, 6, 0⟩ ∧
     0 + 5 + 3 < cWalk.length ∧
     cell_at (initGrid 11 1) 5 0 = some (5, 0) ∧
     cell_at (initGrid 11 1) 6 0 = some (6, 0)) ∧
    partitionLoop rngZ cWalk 5 5 11 0 0 (initGrid 11 1) =
      partitionLoop rngZ cWalk 5 5 10 (0 + 5) (0 + 1)
        (set_wall (initGrid 11 1) (5, 0) (6, 0) Dir.E WallKind.extra).2 :=
  ⟨⟨by decide, by decide, by decide, by decide, by decide, by decide⟩,
   (c5_amended_partition_step rngZ cWalk 5 5 10 0 0 (initGrid 11 1) 5
      ⟨5, 0, Dir.E, 6, 0⟩ (by decide) (by decide) (by decide)).2
      (by decide) (5, 0) (6, 0) (by decide) (by decide)⟩

/-- C10: in Pass B, whenever the randomly drawn direction has an in-bounds
neighbor, the shared wall is removed — set to 'None' (absent) on both cells —
unconditionally, regardless of its prior kind; in particular an 'Extra'
partition-cut wall is erased, and a wall that was already absent is left
absent (the grid is unchanged). -/
theorem c10_square_pass_removes_unconditionally
    (rng : Nat → Nat) (g : Grid) (k : Nat) (c q : Pos) (d : Dir)
    (hlen : (all_reachable g c).length = 4)
    (hsq : is_square (all_reachable g c) = true)
    (hd : [Dir.N, Dir.S, Dir.E, Dir.W].getD (rng k % 4) Dir.N = d)
    (hq : find_neighbor g c d = some q) :
    square_step rng (g, k) c = (remove_wall g c q d, k + 1) ∧
    (remove_wall g c q d).walls c.1 c.2 d = WallKind.absent ∧
    (remove_wall g c q d).walls q.1 q.2 (compliment d) = WallKind.absent ∧
    (g.walls c.1 c.2 d = WallKind.absent ∧
       g.walls q.1 q.2 (compliment d) = WallKind.absent →
     remove_wall g c q d = g) := by
  have hne : d ≠ compliment d := by cases d <;> decide
  refine ⟨?_, ?_, ?_, ?_⟩
  · simp only [square_step, hlen, hsq, hd, hq]
    simp
  · simp [remove_wall, setWallKind, hne]
  · simp [remove_wall, setWallKind]
  · intro hab
    refine Grid.ext' rfl rfl ?_
    funext x y d2
    simp only [remove_wall, setWallKind]
    split_ifs with ho hi
    · obtain ⟨e1, e2, e3⟩ := ho
      rw [e1, e2, e3]
      exact hab.2.symm
    · obtain ⟨e1, e2, e3⟩ := hi
      rw [e1, e2, e3]
      exact hab.1.symm
    · rfl

theorem c10_witness :
    ((all_reachable gSq (0, 0)).length = 4 ∧
     is_square (all_reachable gSq (0, 0)) = true ∧
     [Dir.N, Dir.S, Dir.E, Dir.W].getD (rng2 7 % 4) Dir.N = Dir.E ∧
     find_neighbor gSq (0, 0) Dir.E = some (1, 0) ∧
     gSq.walls 0 0 Dir.E = WallKind.extra) ∧
    square_step rng2 (gSq, 7) (0, 0) = (remove_wall gSq (0, 0) (1, 0) Dir.E, 8) :=
  ⟨⟨by decide, by decide, by decide, by decide, by decide⟩,
   (c10_square_pass_removes_unconditionally rng2 gSq 7 (0, 0) (1, 0) Dir.E
      (by decide) (by decide) (by decide) (by decide)).1⟩

theorem compliment_ne : ∀ d : Dir, compliment d ≠ d := by decide

theorem compliment_compliment : ∀ d : Dir, compliment (compliment d) = d := by decide

theorem compliment_inj : ∀ d1 d2 : Dir, compliment d1 = compliment d2 → d1 = d2 := by
  decide

theorem find_neighbor_bounds {g : Grid} {p q : Pos} {d : Dir}
    (h : find_neighbor g p d = some q) : q.1 < g.width ∧ q.2 < g.height := by
  cases d <;>
    (simp only [find_neighbor, Option.ite_none_right_eq_some, Option.some.injEq] at h
     obtain ⟨hc, hqe⟩ := h
     subst hqe
     omega)

theorem find_neighbor_ne {g : Grid} {p q : Pos} {d : Dir}
    (h : find_neighbor g p d = some q) : q ≠ p := by
  cases d <;>
    (simp only [find_neighbor, Option.ite_none_right_eq_some, Option.some.injEq] at h
     obtain ⟨hc, hqe⟩ := h
     subst hqe
     simp only [ne_eq, Prod.ext_iff, not_and]
     omega)

theorem find_neighbor_inv {g : Grid} {p q : Pos} {d : Dir}
    (hp : p.1 < g.width ∧ p.2 < g.height)
    (h : find_neighbor g p d = some q) :
    find_neighbor g q (compliment d) = some p := by
  cases d <;>
    (simp only [find_neighbor, Option.ite_none_right_eq_some, Option.some.injEq] at h
     obtain ⟨hc, hqe⟩ := h
     subst hqe
     simp only [compliment, find_neighbor, Option.ite_none_right_eq_some,
       Option.some.injEq]
     refine ⟨by omega, ?_⟩
     refine Prod.ext ?_ ?_ <;> omega)

theorem mem_get_valid_neighbors {g : Grid} {p q : Pos} {d : Dir} :
    (d, q) ∈ get_valid_neighbors g p ↔ find_neighbor g p d = some q := by
  unfold get_valid_neighbors
  rw [List.mem_filterMap]
  constructor
  · rintro ⟨d2, _, hm⟩
    cases hfn : find_neighbor g p d2 with
    | none => rw [hfn] at hm; simp at hm
    | some r =>
      rw [hfn] at hm
      simp at hm
      obtain ⟨hd, hq⟩ := hm
      rw [← hd, ← hq] at *
      exact hfn
  · intro hfn
    refine ⟨d, ?_, ?_⟩
    · cases d <;> simp
    · rw [hfn]
      rfl

theorem set_wall_walls (g : Grid) (p q : Pos) (d : Dir) (k : WallKind)
    (x y : Nat) (d2 : Dir) :
    ((set_wall g p q d k).2).walls x y d2 =
      if x = q.1 ∧ y = q.2 ∧ d2 = compliment d then k
      else if x = p.1 ∧ y = p.2 ∧ d2 = d then k
      else g.walls x y d2 := rfl

theorem remove_wall_eq_set_wall (g : Grid) (p q : Pos) (d : Dir) :
    remove_wall g p q d = (set_wall g p q d WallKind.absent).2 := rfl

theorem find_neighbor_set_wall (g : Grid) (p q : Pos) (d : Dir) (k : WallKind)
    (r : Pos) (d2 : Dir) :
    find_neighbor ((set_wall g p q d k).2) r d2 = find_neighbor g r d2 := by
  cases d2 <;> rfl

theorem find_neighbor_congr {g g2 : Grid} (hw : g2.width = g.width)
    (hh : g2.height = g.height) (p : Pos) (d : Dir) :
    find_neighbor g2 p d = find_neighbor g p d := by
  cases d <;> simp [find_neighbor, hw, hh]

theorem wallSym_set_wall {g : Grid} {p q : Pos} {d : Dir} (k : WallKind)
    (hs : WallSym g) (hp : p.1 < g.width ∧ p.2 < g.height)
    (hq : find_neighbor g p d = some q) :
    WallSym ((set_wall g p q d k).2) := by
  have hqp : find_neighbor g q (compliment d) = some p := find_neighbor_inv hp hq
  intro x hx y hy d2 r hr
  rw [Option.mem_def, find_neighbor_set_wall] at hr
  have hxw : x < g.width := hx
  have hyh : y < g.height := hy
  rw [set_wall_walls, set_wall_walls]
  by_cases hA : x = p.1 ∧ y = p.2 ∧ d2 = d
  · obtain ⟨a1, a2, a3⟩ := hA
    subst a1
    subst a2
    subst a3
    have hrq : r = q := by
      have h2 : find_neighbor g p d2 = some r := hr
      rw [hq] at h2
      exact (Option.some.inj h2).symm
    subst hrq
    rw [if_neg (fun hc => compliment_ne d2 hc.2.2.symm), if_pos ⟨rfl, rfl, rfl⟩,
        if_pos ⟨rfl, rfl, rfl⟩]
  · by_cases hB : x = q.1 ∧ y = q.2 ∧ d2 = compliment d
    · obtain ⟨b1, b2, b3⟩ := hB
      subst b1
      subst b2
      subst b3
      have hrp : r = p := by
        have h2 : find_neighbor g q (compliment d) = some r := hr
        rw [hqp] at h2
        exact (Option.some.inj h2).symm
      subst hrp
      rw [if_pos ⟨rfl, rfl, rfl⟩, compliment_compliment,
          if_neg (fun hc => compliment_ne d hc.2.2.symm), if_pos ⟨rfl, rfl, rfl⟩]
    · have hr2 : find_neighbor g (x, y) d2 = some r := hr
      have houter : ¬(r.1 = q.1 ∧ r.2 = q.2 ∧ compliment d2 = compliment d) := by
        rintro ⟨e1, e2, e3⟩
        have hd2 : d2 = d := compliment_inj _ _ e3
        subst hd2
        have hrq : r = q := Prod.ext e1 e2
        subst hrq
        have h4 := find_neighbor_inv ⟨hxw, hyh⟩ hr2
        rw [hqp] at h4
        have h5 : p = (x, y) := Option.some.inj h4
        exact hA ⟨by rw [h5], by rw [h5], rfl⟩
      have hinner : ¬(r.1 = p.1 ∧ r.2 = p.2 ∧ compliment d2 = d) := by
        rintro ⟨e1, e2, e3⟩
        have hd2 : d2 = compliment d := by
          rw [← e3, compliment_compliment]
        subst hd2
        have hrp : r = p := Prod.ext e1 e2
        subst hrp
        have h4 := find_neighbor_inv ⟨hxw, hyh⟩ hr2
        rw [compliment_compliment] at h4
        rw [hq] at h4
        have h5 : q = (x, y) := Option.some.inj h4
        exact hB ⟨by rw [h5], by rw [h5], rfl⟩
      rw [if_neg hA, if_neg hB, if_neg houter, if_neg hinner]
      exact hs x hx y hy d2 r hr

theorem wallSym_remove_wall {g : Grid} {p q : Pos} {d : Dir}
    (hs : WallSym g) (hp : p.1 < g.width ∧ p.2 < g.height)
    (hq : find_neighbor g p d = some q) :
    WallSym (remove_wall g p q d) := by
  rw [remove_wall_eq_set_wall]
  exact wallSym_set_wall _ hs hp hq

theorem wallSym_init (w h : Nat) : WallSym (initGrid w h) := by
  intro x _ y _ d q _
  rfl

theorem set_wall_restore {g : Grid} {p q : Pos} {d : Dir} (k : WallKind)
    (hs : WallSym g) (hp : p.1 < g.width ∧ p.2 < g.height)
    (hq : find_neighbor g p d = some q) :
    (set_wall ((set_wall g p q d k).2) p q d ((set_wall g p q d k).1)).2 = g := by
  have hsym : g.walls p.1 p.2 d = g.walls q.1 q.2 (compliment d) := by
    refine hs p.1 hp.1 p.2 hp.2 d q ?_
    rw [Option.mem_def]
    exact hq
  refine Grid.ext' rfl rfl ?_
  funext x y d2
  rw [set_wall_walls, set_wall_walls]
  split_ifs with h1 h2
  · obtain ⟨e1, e2, e3⟩ := h1
    rw [e1, e2, e3]
    exact hsym
  · obtain ⟨e1, e2, e3⟩ := h2
    rw [e1, e2, e3]
    rfl
  · rfl

/-- C8: in Pass C, when a tentative wall addition is rejected because either
resulting fragment would be of size ≤ minComponentSize − 1, the rollback
writes back the exact wall kind returned by the preceding `set_wall` call and
restores the grid to precisely its state before the attempt; the retry then
continues on the unchanged grid (though with the stale, freshly recomputed
`reachable_cells` list, exactly as the Python variable is left). -/
theorem c8_rejected_split_rolls_back_exactly
    (rng : Nat → Nat) (thr : Nat) (c : Pos) (starting att k : Nat)
    (g : Grid) (reach : List Pos) (rc adj : Pos) (d : Dir)
    (hs : WallSym g)
    (hrcb : rc.1 < g.width ∧ rc.2 < g.height)
    (hrc : reach.getD (rng k % reach.length) c = rc)
    (hd : [Dir.N, Dir.S, Dir.E, Dir.W].getD (rng (k + 1) % 4) Dir.N = d)
    (hfn : find_neighbor g rc d = some adj)
    (hreject :
      ((all_reachable (set_wall g rc adj d WallKind.normal).2 c).length : Int) ≤
          (thr : Int) - 1 ∨
        (starting : Int) -
            ((all_reachable (set_wall g rc adj d WallKind.normal).2 c).length : Int) ≤
          (thr : Int) - 1) :
    (set_wall ((set_wall g rc adj d WallKind.normal).2) rc adj d
        ((set_wall g rc adj d WallKind.normal).1)).2 = g ∧
    big_attempt rng thr c starting (att + 1) g reach k =
      big_attempt rng thr c starting att g
        (all_reachable (set_wall g rc adj d WallKind.normal).2 c) (k + 2) := by
  have hrestore := set_wall_restore WallKind.normal hs hrcb hfn
  refine ⟨hrestore, ?_⟩
  rw [big_attempt]
  simp only [hrc, hd, hfn]
  rw [if_pos hreject]
  rw [hrestore]

theorem c8_witness :
    (WallSym gFull4 ∧
     ((0, 0) : Pos).1 < gFull4.width ∧ ((0, 0) : Pos).2 < gFull4.height ∧
     (all_reachable gFull4 (0, 0)).getD
       (rngC8 0 % (all_reachable gFull4 (0, 0)).length) (0, 0) = (0, 0) ∧
     [Dir.N, Dir.S, Dir.E, Dir.W].getD (rngC8 (0 + 1) % 4) Dir.N = Dir.E ∧
     find_neighbor gFull4 (0, 0) Dir.E = some (1, 0) ∧
     ((all_reachable (set_wall gFull4 (0, 0) (1, 0) Dir.E WallKind.normal).2
         (0, 0)).length : Int) ≤ (5 : Int) - 1) ∧
    big_attempt rngC8 5 (0, 0) 4 (19 + 1) gFull4 (all_reachable gFull4 (0, 0)) 0 =
      big_attempt rngC8 5 (0, 0) 4 19 gFull4
        (all_reachable (set_wall gFull4 (0, 0) (1, 0) Dir.E WallKind.normal).2 (0, 0))
        (0 + 2) :=
  ⟨⟨by decide, by decide, by decide, by decide, by decide, by decide, by decide⟩,
   (c8_rejected_split_rolls_back_exactly rngC8 5 (0, 0) 4 19 0 gFull4
      (all_reachable gFull4 (0, 0)) (0, 0) (1, 0) Dir.E (by decide) (by decide)
      (by decide) (by decide) (by decide) (Or.inl (by decide))).2⟩

theorem rowMajor_mem {w h : Nat} {p : Pos} (hp : p ∈ rowMajor w h) :
    p.1 < w ∧ p.2 < h := by
  unfold rowMajor at hp
  simp only [List.mem_flatMap, List.mem_map, List.mem_range] at hp
  obtain ⟨y, hy, x, hx, he⟩ := hp
  rw [← he]
  exact ⟨hx, hy⟩

theorem getD_mem_of_default_mem {α : Type} {l : List α} {d : α} (i : Nat)
    (hd : d ∈ l) : l.getD i d ∈ l := by
  rw [List.getD_eq_getElem?_getD]
  cases h : l[i]? with
  | none => simpa using hd
  | some a =>
    simp only [Option.getD_some]
    exact List.getElem?_mem h

theorem mem_gdrn {g : Grid} {p : Pos} {n : Dir × Pos}
    (hn : n ∈ get_directly_reachable_neighbors g p) :
    find_neighbor g p n.1 = some n.2 ∧ has_wall g p n.1 = false := by
  unfold get_directly_reachable_neighbors at hn
  rw [List.mem_filter] at hn
  obtain ⟨h1, h2⟩ := hn
  refine ⟨?_, ?_⟩
  · have : (n.1, n.2) ∈ get_valid_neighbors g p := by
      rw [show ((n.1, n.2) : Dir × Pos) = n from rfl]
      exact h1
    exact mem_get_valid_neighbors.mp this
  · simpa using h2

theorem ar_fold_mem (g : Grid) (fuel : Nat)
    (ih : ∀ cell seen, ∀ p ∈ (all_reachable_recursive g fuel cell seen).1,
      p = cell ∨ (p.1 < g.width ∧ p.2 < g.height)) :
    ∀ (l : List (Dir × Pos)) (acc : List Pos × List Pos) (root : Pos),
      (∀ n ∈ l, find_neighbor g root n.1 = some n.2) →
      (∀ p ∈ acc.1, p.1 < g.width ∧ p.2 < g.height) →
      ∀ p ∈ (l.foldl (fun acc n =>
          if n.2 ∈ acc.2 then acc
          else
            let r1 := all_reachable_recursive g fuel n.2 (acc.2 ++ [n.2])
            (acc.1 ++ r1.1, r1.2)) acc).1,
        p.1 < g.width ∧ p.2 < g.height := by
  intro l
  induction l with
  | nil => intro acc root _ hacc p hp; exact hacc p hp
  | cons n rest ihl =>
    intro acc root hl hacc p hp
    rw [List.foldl_cons] at hp
    by_cases hmem : n.2 ∈ acc.2
    · rw [if_pos hmem] at hp
      exact ihl acc root (fun m hm => hl m (List.mem_cons_of_mem _ hm)) hacc p hp
    · rw [if_neg hmem] at hp
      refine ihl _ root (fun m hm => hl m (List.mem_cons_of_mem _ hm)) ?_ p hp
      intro p2 hp2
      rcases List.mem_append.mp hp2 with h2 | h2
      · exact hacc p2 h2
      · have hn := find_neighbor_bounds (hl n (List.mem_cons_self _ _))
        rcases ih n.2 _ p2 h2 with he | hb
        · rw [he]; exact hn
        · exact hb

theorem all_reachable_recursive_mem (g : Grid) : ∀ (fuel : Nat) (cell : Pos)
    (seen : List Pos), ∀ p ∈ (all_reachable_recursive g fuel cell seen).1,
    p = cell ∨ (p.1 < g.width ∧ p.2 < g.height) := by
  intro fuel
  induction fuel with
  | zero =>
    intro cell seen p hp
    rw [all_reachable_recursive] at hp
    simp at hp
    exact Or.inl hp
  | succ n ih =>
    intro cell seen p hp
    rw [all_reachable_recursive] at hp
    simp only [List.mem_cons] at hp
    rcases hp with h | h
    · exact Or.inl h
    · right
      refine ar_fold_mem g n ih (get_directly_reachable_neighbors g cell)
        ([], seen) cell ?_ ?_ p h
      · intro m hm
        exact (mem_gdrn hm).1
      · intro p2 hp2
        simp at hp2

theorem mem_all_reachable_bounds {g : Grid} {c p : Pos}
    (hc : c.1 < g.width ∧ c.2 < g.height) (hp : p ∈ all_reachable g c) :
    p.1 < g.width ∧ p.2 < g.height := by
  rcases all_reachable_recursive_mem g _ c [c] p hp with he | hb
  · rw [he]; exact hc
  · exact hb

theorem su_fold (g : Grid) (c : Pos) : ∀ (l : List (Dir × Pos))
    (acc : Option (Pos × Dir) × Nat),
    (l.foldl (suStep g c) acc).2 ≤ acc.2 ∧
    (∀ n ∈ l, is_reachable g c n.2 = false →
      (l.foldl (suStep g c) acc).2 ≤ (all_reachable g n.2).length) ∧
    ((∀ q dir, acc.1 = some (q, dir) →
        acc.2 = (all_reachable g q).length ∧ is_reachable g c q = false) →
      ∀ q dir, (l.foldl (suStep g c) acc).1 = some (q, dir) →
        (l.foldl (suStep g c) acc).2 = (all_reachable g q).length ∧
          is_reachable g c q = false) ∧
    (∀ q dir, (l.foldl (suStep g c) acc).1 = some (q, dir) →
      (dir, q) ∈ l ∨ acc.1 = some (q, dir)) := by
  intro l
  induction l with
  | nil =>
    intro acc
    simp only [List.foldl_nil]
    exact ⟨le_refl _, by simp, fun h => h, fun q dir h => Or.inr h⟩
  | cons n rest ihl =>
    intro acc
    rw [List.foldl_cons]
    have hmain : ∀ acc2 : Option (Pos × Dir) × Nat, suStep g c acc n = acc2 →
        (rest.foldl (suStep g c) acc2).2 ≤ acc.2 ∧
        (∀ m ∈ n :: rest, is_reachable g c m.2 = false →
          (rest.foldl (suStep g c) acc2).2 ≤ (all_reachable g m.2).length) ∧
        ((∀ q dir, acc.1 = some (q, dir) →
            acc.2 = (all_reachable g q).length ∧ is_reachable g c q = false) →
          ∀ q dir, (rest.foldl (suStep g c) acc2).1 = some (q, dir) →
            (rest.foldl (suStep g c) acc2).2 = (all_reachable g q).length ∧
              is_reachable g c q = false) ∧
        (∀ q dir, (rest.foldl (suStep g c) acc2).1 = some (q, dir) →
          (dir, q) ∈ n :: rest ∨ acc.1 = some (q, dir)) := by
      intro acc2 hacc2
      obtain ⟨i1, i2, i3, i4⟩ := ihl acc2
      cases hreach : is_reachable g c n.2 with
      | true =>
        have hstep : acc2 = acc := by
          rw [← hacc2]
          simp [suStep, hreach]
        subst hstep
        refine ⟨i1, ?_, i3, ?_⟩
        · intro m hm hmr
          rcases List.mem_cons.mp hm with he | hm2
          · rw [he, hreach] at hmr
            exact absurd hmr (by simp)
          · exact i2 m hm2 hmr
        · intro q dir hq
          rcases i4 q dir hq with h | h
          · exact Or.inl (List.mem_cons_of_mem _ h)
          · exact Or.inr h
      | false =>
        by_cases hlt : (all_reachable g n.2).length < acc.2
        · have hstep : acc2 = (some (n.2, n.1), (all_reachable g n.2).length) := by
            rw [← hacc2]
            simp [suStep, hreach, hlt]
          subst hstep
          refine ⟨le_trans i1 (le_of_lt hlt), ?_, ?_, ?_⟩
          · intro m hm hmr
            rcases List.mem_cons.mp hm with he | hm2
            · rw [he]
              exact i1
            · exact i2 m hm2 hmr
          · intro _ q dir hq
            refine i3 ?_ q dir hq
            intro q2 dir2 hq2
            have hq2' : q2 = n.2 := by
              injection hq2 with h1
              injection h1 with h2 h3
              exact h2.symm
            subst hq2'
            exact ⟨rfl, hreach⟩
          · intro q dir hq
            rcases i4 q dir hq with h | h
            · exact Or.inl (List.mem_cons_of_mem _ h)
            · injection h with h1
              injection h1 with h2 h3
              left
              rw [← h2, ← h3]
              exact List.mem_cons_self _ _
        · have hstep : acc2 = acc := by
            rw [← hacc2]
            simp [suStep, hreach, hlt]
          subst hstep
          refine ⟨i1, ?_, i3, ?_⟩
          · intro m hm hmr
            rcases List.mem_cons.mp hm with he | hm2
            · rw [he]
              exact le_trans i1 (Nat.le_of_not_lt hlt)
            · exact i2 m hm2 hmr
          · intro q dir hq
            rcases i4 q dir hq with h | h
            · exact Or.inl (List.mem_cons_of_mem _ h)
            · exact Or.inr h
    exact hmain _ rfl

theorem smallest_unreachable_spec (g : Grid) (c : Pos) (q : Pos) (dir : Dir)
    (cnt : Nat) (hres : smallest_unreachable g c = (some (q, dir), cnt)) :
    find_neighbor g c dir = some q ∧ is_reachable g c q = false ∧
    cnt = (all_reachable g q).length ∧
    (∀ n ∈ get_valid_neighbors g c, is_reachable g c n.2 = false →
      cnt ≤ (all_reachable g n.2).length) := by
  unfold smallest_unreachable at hres
  obtain ⟨i1, i2, i3, i4⟩ := su_fold g c (get_valid_neighbors g c) (none, 10000)
  have h1 : ((get_valid_neighbors g c).foldl (suStep g c) (none, 10000)).1 =
      some (q, dir) := by rw [hres]
  have h2 : ((get_valid_neighbors g c).foldl (suStep g c) (none, 10000)).2 =
      cnt := by rw [hres]
  have hmem : (dir, q) ∈ get_valid_neighbors g c := by
    rcases i4 q dir h1 with h | h
    · exact h
    · exact absurd h (by simp)
  have hchar := i3 (by intro q2 dir2 h; exact absurd h (by simp)) q dir h1
  refine ⟨mem_get_valid_neighbors.mp hmem, hchar.2, ?_, ?_⟩
  · rw [← h2]
    exact hchar.1
  · intro n hn hnr
    rw [← h2]
    exact i2 n hn hnr

theorem small_step_no_action (g : Grid) (thr : Nat) (c : Pos)
    (h : ¬ (all_reachable g c).length < thr - 1) :
    small_step g thr c = some g := by
  unfold small_step
  rw [if_neg h]

theorem small_step_acts (g : Grid) (thr : Nat) (c q : Pos) (dir : Dir) (cnt : Nat)
    (h : (all_reachable g c).length < thr - 1)
    (hres : smallest_unreachable g c = (some (q, dir), cnt)) :
    small_step g thr c = some (remove_wall g c q dir) := by
  unfold small_step
  rw [if_pos h, hres]

theorem small_step_wallSym {g g2 : Grid} {thr : Nat} {c : Pos}
    (hstep : small_step g thr c = some g2)
    (hs : WallSym g) (hc : c.1 < g.width ∧ c.2 < g.height) :
    WallSym g2 ∧ g2.width = g.width ∧ g2.height = g.height := by
  unfold small_step at hstep
  split at hstep
  · rcases hsu : smallest_unreachable g c with ⟨os, cnt2⟩
    rw [hsu] at hstep
    cases os with
    | none => exact absurd hstep (by simp)
    | some qd =>
      have hg2 : remove_wall g c qd.1 qd.2 = g2 := by
        injection hstep
      have hfn : find_neighbor g c qd.2 = some qd.1 :=
        (smallest_unreachable_spec g c qd.1 qd.2 cnt2 (by rw [hsu])).1
      rw [← hg2]
      exact ⟨wallSym_remove_wall hs hc hfn, rfl, rfl⟩
  · have hg2 : g = g2 := by injection hstep
    rw [← hg2]
    exact ⟨hs, rfl, rfl⟩

theorem foldlM_small_wallSym (thr : Nat) : ∀ (l : List Pos) (g g' : Grid),
    (∀ c ∈ l, c.1 < g.width ∧ c.2 < g.height) → WallSym g →
    l.foldlM (fun g2 c => small_step g2 thr c) g = some g' →
    WallSym g' ∧ g'.width = g.width ∧ g'.height = g.height := by
  intro l
  induction l with
  | nil =>
    intro g g' _ hs hfold
    simp only [List.foldlM_nil] at hfold
    have : g = g' := by injection hfold
    rw [← this]
    exact ⟨hs, rfl, rfl⟩
  | cons c rest ihl =>
    intro g g' hb hs hfold
    rw [List.foldlM_cons] at hfold
    cases hstep : small_step g thr c with
    | none => rw [hstep] at hfold; exact absurd hfold (by simp)
    | some g1 =>
      rw [hstep] at hfold
      simp only [Option.bind_eq_bind, Option.some_bind] at hfold
      have h1 := small_step_wallSym hstep hs (hb c (List.mem_cons_self _ _))
      have h2 := ihl g1 g'
        (by intro c2 hc2; rw [h1.2.1, h1.2.2]; exact hb c2 (List.mem_cons_of_mem _ hc2))
        h1.1 hfold
      exact ⟨h2.1, h2.2.1.trans h1.2.1, h2.2.2.trans h1.2.2⟩

theorem optimize_small_pieces_wallSym {g g' : Grid} {thr : Nat}
    (hs : WallSym g) (hopt : optimize_small_pieces g thr = some g') :
    WallSym g' ∧ g'.width = g.width ∧ g'.height = g.height := by
  unfold optimize_small_pieces at hopt
  exact foldlM_small_wallSym thr (rowMajor g.width g.height) g g'
    (fun c hc => rowMajor_mem hc) hs hopt

theorem square_step_wallSym (rng : Nat → Nat) (st : Grid × Nat) (c : Pos)
    (hs : WallSym st.1) (hc : c.1 < st.1.width ∧ c.2 < st.1.height) :
    WallSym (square_step rng st c).1 ∧
    (square_step rng st c).1.width = st.1.width ∧
    (square_step rng st c).1.height = st.1.height := by
  unfold square_step
  dsimp only
  split
  · cases hfn : find_neighbor st.1 c
        ([Dir.N, Dir.S, Dir.E, Dir.W].getD (rng st.2 % 4) Dir.N) with
    | none => exact ⟨hs, rfl, rfl⟩
    | some q => exact ⟨wallSym_remove_wall hs hc hfn, rfl, rfl⟩
  · exact ⟨hs, rfl, rfl⟩

theorem foldl_square_wallSym (rng : Nat → Nat) : ∀ (l : List Pos) (st : Grid × Nat),
    (∀ c ∈ l, c.1 < st.1.width ∧ c.2 < st.1.height) → WallSym st.1 →
    WallSym (l.foldl (square_step rng) st).1 ∧
    (l.foldl (square_step rng) st).1.width = st.1.width ∧
    (l.foldl (square_step rng) st).1.height = st.1.height := by
  intro l
  induction l with
  | nil => intro st _ hs; exact ⟨hs, rfl, rfl⟩
  | cons c rest ihl =>
    intro st hb hs
    rw [List.foldl_cons]
    have h1 := square_step_wallSym rng st c hs (hb c (List.mem_cons_self _ _))
    have h2 := ihl (square_step rng st c)
      (by intro c2 hc2; rw [h1.2.1, h1.2.2]; exact hb c2 (List.mem_cons_of_mem _ hc2))
      h1.1
    exact ⟨h2.1, h2.2.1.trans h1.2.1, h2.2.2.trans h1.2.2⟩

theorem optimize_square_pieces_wallSym (rng : Nat → Nat) (g : Grid) (k : Nat)
    (hs : WallSym g) :
    WallSym (optimize_square_pieces rng g k).1 ∧
    (optimize_square_pieces rng g k).1.width = g.width ∧
    (optimize_square_pieces rng g k).1.height = g.height := by
  unfold optimize_square_pieces
  exact foldl_square_wallSym rng (rowMajor g.width g.height) (g, k)
    (fun c hc => rowMajor_mem hc) hs

theorem big_attempt_wallSym (rng : Nat → Nat) (thr : Nat) (c : Pos)
    (starting : Nat) : ∀ (att : Nat) (g : Grid) (reach : List Pos) (k : Nat),
    WallSym g → (c.1 < g.width ∧ c.2 < g.height) →
    (∀ p ∈ reach, p.1 < g.width ∧ p.2 < g.height) →
    WallSym (big_attempt rng thr c starting att g reach k).1 ∧
    (big_attempt rng thr c starting att g reach k).1.width = g.width ∧
    (big_attempt rng thr c starting att g reach k).1.height = g.height := by
  intro att
  induction att with
  | zero =>
    intro g reach k hs _ _
    rw [big_attempt]
    exact ⟨hs, rfl, rfl⟩
  | succ n ih =>
    intro g reach k hs hc hr
    rw [big_attempt]
    dsimp only
    have hrc : (reach.getD (rng k % reach.length) c).1 < g.width ∧
        (reach.getD (rng k % reach.length) c).2 < g.height := by
      rw [List.getD_eq_getElem?_getD]
      cases hg : reach[rng k % reach.length]? with
      | none => simpa using hc
      | some a =>
        simp only [Option.getD_some]
        exact hr a (List.getElem?_mem hg)
    cases hfn : find_neighbor g (reach.getD (rng k % reach.length) c)
        ([Dir.N, Dir.S, Dir.E, Dir.W].getD (rng (k + 1) % 4) Dir.N) with
    | none =>
      exact ih g reach (k + 2) hs hc hr
    | some adj =>
      dsimp only
      have hsym2 : WallSym ((set_wall g (reach.getD (rng k % reach.length) c) adj
          ([Dir.N, Dir.S, Dir.E, Dir.W].getD (rng (k + 1) % 4) Dir.N)
          WallKind.normal).2) :=
        wallSym_set_wall _ hs hrc hfn
      have hreach2 : ∀ p ∈ all_reachable ((set_wall g
          (reach.getD (rng k % reach.length) c) adj
          ([Dir.N, Dir.S, Dir.E, Dir.W].getD (rng (k + 1) % 4) Dir.N)
          WallKind.normal).2) c, p.1 < g.width ∧ p.2 < g.height := by
        intro p hp
        exact @mem_all_reachable_bounds
          (set_wall g (reach.getD (rng k % reach.length) c) adj
            ([Dir.N, Dir.S, Dir.E, Dir.W].getD (rng (k + 1) % 4) Dir.N)
            WallKind.normal).2 c p hc hp
      split_ifs with h1 h2
      · rw [set_wall_restore WallKind.normal hs hrc hfn]
        exact ih g _ (k + 2) hs hc hreach2
      · exact ⟨hsym2, rfl, rfl⟩
      · exact ih _ _ (k + 2) hsym2 hc hreach2
  
theorem big_step_wallSym (rng : Nat → Nat) (thr mx : Nat) (st : Grid × Nat)
    (c : Pos) (hs : WallSym st.1) (hc : c.1 < st.1.width ∧ c.2 < st.1.height) :
    WallSym (big_step rng thr mx st c).1 ∧
    (big_step rng thr mx st c).1.width = st.1.width ∧
    (big_step rng thr mx st c).1.height = st.1.height := by
  unfold big_step
  dsimp only
  split
  · exact big_attempt_wallSym rng thr c _ 20 st.1 _ st.2 hs hc
      (fun p hp => mem_all_reachable_bounds hc hp)
  · exact ⟨hs, rfl, rfl⟩

theorem foldl_big_wallSym (rng : Nat → Nat) (thr mx : Nat) :
    ∀ (l : List Pos) (st : Grid × Nat),
    (∀ c ∈ l, c.1 < st.1.width ∧ c.2 < st.1.height) → WallSym st.1 →
    WallSym (l.foldl (big_step rng thr mx) st).1 ∧
    (l.foldl (big_step rng thr mx) st).1.width = st.1.width ∧
    (l.foldl (big_step rng thr mx) st).1.height = st.1.height := by
  intro l
  induction l with
  | nil => intro st _ hs; exact ⟨hs, rfl, rfl⟩
  | cons c rest ihl =>
    intro st hb hs
    rw [List.foldl_cons]
    have h1 := big_step_wallSym rng thr mx st c hs (hb c (List.mem_cons_self _ _))
    have h2 := ihl (big_step rng thr mx st c)
      (by intro c2 hc2; rw [h1.2.1, h1.2.2]; exact hb c2 (List.mem_cons_of_mem _ hc2))
      h1.1
    exact ⟨h2.1, h2.2.1.trans h1.2.1, h2.2.2.trans h1.2.2⟩

theorem optimize_too_big_pieces_wallSym (rng : Nat → Nat) (g : Grid)
    (thr mx k : Nat) (hs : WallSym g) :
    WallSym (optimize_too_big_pieces rng g thr mx k).1 ∧
    (optimize_too_big_pieces rng g thr mx k).1.width = g.width ∧
    (optimize_too_big_pieces rng g thr mx k).1.height = g.height := by
  unfold optimize_too_big_pieces
  exact foldl_big_wallSym rng thr mx (rowMajor g.width g.height) (g, k)
    (fun c hc => rowMajor_mem hc) hs

theorem foldl_interior_inner_wallSym (gO : Grid) (c : Pos)
    (hcb : c.1 < gO.width ∧ c.2 < gO.height) :
    ∀ (l : List (Dir × Pos)) (g : Grid),
    (∀ n ∈ l, find_neighbor gO c n.1 = some n.2) →
    g.width = gO.width → g.height = gO.height → WallSym g →
    WallSym (l.foldl (fun g2 n =>
      if has_wall g2 c n.1 && is_reachable g2 c n.2 then
        (set_wall g2 c n.2 n.1 WallKind.interior).2
      else g2) g) ∧
    (l.foldl (fun g2 n =>
      if has_wall g2 c n.1 && is_reachable g2 c n.2 then
        (set_wall g2 c n.2 n.1 WallKind.interior).2
      else g2) g).width = gO.width ∧
    (l.foldl (fun g2 n =>
      if has_wall g2 c n.1 && is_reachable g2 c n.2 then
        (set_wall g2 c n.2 n.1 WallKind.interior).2
      else g2) g).height = gO.height := by
  intro l
  induction l with
  | nil => intro g _ hw hh hs; exact ⟨hs, hw, hh⟩
  | cons n rest ihl =>
    intro g hl hw hh hs
    rw [List.foldl_cons]
    have hfn : find_neighbor g c n.1 = some n.2 := by
      rw [find_neighbor_congr hw hh]
      exact hl n (List.mem_cons_self _ _)
    have hcb2 : c.1 < g.width ∧ c.2 < g.height := by
      rw [hw, hh]
      exact hcb
    by_cases hcond : (has_wall g c n.1 && is_reachable g c n.2) = true
    · rw [if_pos hcond]
      exact ihl _ (fun m hm => hl m (List.mem_cons_of_mem _ hm)) hw hh
        (wallSym_set_wall _ hs hcb2 hfn)
    · rw [if_neg hcond]
      exact ihl _ (fun m hm => hl m (List.mem_cons_of_mem _ hm)) hw hh hs

theorem interior_step_wallSym (g : Grid) (c : Pos)
    (hcb : c.1 < g.width ∧ c.2 < g.height) (hs : WallSym g) :
    WallSym (interior_step g c) ∧ (interior_step g c).width = g.width ∧
    (interior_step g c).height = g.height := by
  unfold interior_step
  exact foldl_interior_inner_wallSym g c hcb (get_valid_neighbors g c) g
    (fun n hn => mem_get_valid_neighbors.mp
      (by rw [show ((n.1, n.2) : Dir × Pos) = n from rfl]; exact hn))
    rfl rfl hs

theorem find_interior_walls_wallSym (g : Grid) (hs : WallSym g) :
    WallSym (find_interior_walls g) ∧ (find_interior_walls g).width = g.width ∧
    (find_interior_walls g).height = g.height := by
  unfold find_interior_walls
  have hgen : ∀ (l : List Pos) (g2 : Grid),
      (∀ c ∈ l, c.1 < g2.width ∧ c.2 < g2.height) → WallSym g2 →
      WallSym (l.foldl interior_step g2) ∧
      (l.foldl interior_step g2).width = g2.width ∧
      (l.foldl interior_step g2).height = g2.height := by
    intro l
    induction l with
    | nil => intro g2 _ hs2; exact ⟨hs2, rfl, rfl⟩
    | cons c rest ihl =>
      intro g2 hb hs2
      rw [List.foldl_cons]
      have h1 := interior_step_wallSym g2 c (hb c (List.mem_cons_self _ _)) hs2
      have h2 := ihl (interior_step g2 c)
        (by intro c2 hc2; rw [h1.2.1, h1.2.2]; exact hb c2 (List.mem_cons_of_mem _ hc2))
        h1.1
      exact ⟨h2.1, h2.2.1.trans h1.2.1, h2.2.2.trans h1.2.2⟩
  exact hgen (rowMajor g.width g.height) g (fun c hc => rowMajor_mem hc) hs

theorem mem_find_unused {g : Grid} {p : Pos} {n : Dir × Pos}
    (hn : n ∈ find_unused_neighbors g p) :
    find_neighbor g p n.1 = some n.2 ∧ is_completely_disconnected g n.2 = true := by
  unfold find_unused_neighbors at hn
  rw [List.mem_filter] at hn
  obtain ⟨h1, h2⟩ := hn
  refine ⟨?_, h2⟩
  refine mem_get_valid_neighbors.mp ?_
  rw [show ((n.1, n.2) : Dir × Pos) = n from rfl]
  exact h1

theorem carveLoop_wallSym (rng : Nat → Nat) : ∀ (fuel : Nat) (s s' : CarveState),
    carveLoop rng fuel s = some s' →
    WallSym s.g → (s.current.1 < s.g.width ∧ s.current.2 < s.g.height) →
    (∀ p ∈ s.stack, p.1 < s.g.width ∧ p.2 < s.g.height) →
    WallSym s'.g := by
  intro fuel
  induction fuel with
  | zero => intro s s' h; simp [carveLoop] at h
  | succ n ih =>
    intro s s' h hs hc hst
    rw [carveLoop] at h
    split at h
    · split at h
      case _ hfu =>
        split at h
        · exact absurd h (by simp)
        case _ c2 rest hstk =>
          refine ih _ _ h hs ?_ ?_
          · exact hst c2 (by rw [hstk]; exact List.mem_cons_self _ _)
          · intro p hp
            exact hst p (by rw [hstk]; exact List.mem_cons_of_mem _ hp)
      case _ n0 ns hfu =>
        dsimp only at h
        have hpickmem : (n0 :: ns).getD (rng s.k % (n0 :: ns).length) n0 ∈
            n0 :: ns := getD_mem_of_default_mem _ (List.mem_cons_self _ _)
        have hmem2 : (n0 :: ns).getD (rng s.k % (n0 :: ns).length) n0 ∈
            find_unused_neighbors s.g s.current := by
          rw [hfu]
          exact hpickmem
        have hpick := mem_find_unused hmem2
        have hpb := find_neighbor_bounds hpick.1
        refine ih _ _ h ?_ ?_ ?_
        · exact wallSym_remove_wall hs hc hpick.1
        · exact hpb
        · intro p hp
          rcases List.mem_cons.mp hp with he | hp2
          · rw [he]; exact hc
          · exact hst p hp2
    · cases h
      exact hs

theorem dw_fold_edges (g : Grid) (fuel : Nat)
    (ih : ∀ cell seen, (cell.1 < g.width ∧ cell.2 < g.height) →
      ∀ e ∈ (dfs_walk_recursive g fuel cell seen).1,
        e.x < g.width ∧ e.y < g.height ∧
        find_neighbor g (e.x, e.y) e.d = some (e.nx, e.ny)) :
    ∀ (l : List (Dir × Pos)) (acc : List WalkEdge × List Pos) (root : Pos),
      (root.1 < g.width ∧ root.2 < g.height) →
      (∀ n ∈ l, find_neighbor g root n.1 = some n.2) →
      (∀ e ∈ acc.1, e.x < g.width ∧ e.y < g.height ∧
        find_neighbor g (e.x, e.y) e.d = some (e.nx, e.ny)) →
      ∀ e ∈ (l.foldl (fun acc n =>
          if n.2 ∈ acc.2 then acc
          else
            let r1 := dfs_walk_recursive g fuel n.2 (acc.2 ++ [n.2])
            (acc.1 ++ ⟨root.1, root.2, n.1, n.2.1, n.2.2⟩ :: r1.1, r1.2)) acc).1,
        e.x < g.width ∧ e.y < g.height ∧
        find_neighbor g (e.x, e.y) e.d = some (e.nx, e.ny) := by
  intro l
  induction l with
  | nil => intro acc root _ _ hacc e he; exact hacc e he
  | cons n rest ihl =>
    intro acc root hroot hl hacc e he
    rw [List.foldl_cons] at he
    by_cases hmem : n.2 ∈ acc.2
    · rw [if_pos hmem] at he
      exact ihl acc root hroot (fun m hm => hl m (List.mem_cons_of_mem _ hm)) hacc e he
    · rw [if_neg hmem] at he
      have hn := hl n (List.mem_cons_self _ _)
      have hnb := find_neighbor_bounds hn
      refine ihl _ root hroot (fun m hm => hl m (List.mem_cons_of_mem _ hm)) ?_ e he
      intro e2 he2
      rcases List.mem_append.mp he2 with h2 | h2
      · exact hacc e2 h2
      · rcases List.mem_cons.mp h2 with he3 | h3
        · rw [he3]
          exact ⟨hroot.1, hroot.2, hn⟩
        · exact ih n.2 _ hnb e2 h3

theorem dfs_walk_recursive_edges (g : Grid) : ∀ (fuel : Nat) (cell : Pos)
    (seen : List Pos), (cell.1 < g.width ∧ cell.2 < g.height) →
    ∀ e ∈ (dfs_walk_recursive g fuel cell seen).1,
      e.x < g.width ∧ e.y < g.height ∧
      find_neighbor g (e.x, e.y) e.d = some (e.nx, e.ny) := by
  intro fuel
  induction fuel with
  | zero =>
    intro cell seen _ e he
    rw [dfs_walk_recursive] at he
    simp at he
  | succ n ih =>
    intro cell seen hcb e he
    rw [dfs_walk_recursive] at he
    split at he
    · simp at he
    · exact dw_fold_edges g n ih (get_directly_reachable_neighbors g cell)
        ([], seen) cell hcb (fun m hm => (mem_gdrn hm).1) (by simp) e he

theorem dfs_walk_edges {g : Grid} {x y : Nat} {walk : List WalkEdge}
    (hw : dfs_walk g x y = some walk) :
    ∀ e ∈ walk, e.x < g.width ∧ e.y < g.height ∧
      find_neighbor g (e.x, e.y) e.d = some (e.nx, e.ny) := by
  unfold dfs_walk at hw
  cases hc : cell_at g x y with
  | none => rw [hc] at hw; exact absurd hw (by simp)
  | some p =>
    rw [hc] at hw
    simp only [Option.some.injEq] at hw
    have hpb : p.1 < g.width ∧ p.2 < g.height := by
      unfold cell_at at hc
      split at hc
      case _ hin =>
        have : p = (x, y) := by injection hc; simp_all
        rw [this]
        exact hin
      · exact absurd hc (by simp)
    rw [← hw]
    exact dfs_walk_recursive_edges g _ p [] hpb

theorem getD_mem_of_lt {α : Type} {l : List α} {i : Nat} (d : α)
    (h : i < l.length) : l.getD i d ∈ l := by
  rw [List.getD_eq_getElem?_getD]
  cases hg : l[i]? with
  | none => rw [List.getElem?_eq_none_iff] at hg; omega
  | some a =>
    simp only [Option.getD_some]
    exact List.getElem?_mem hg

theorem cell_at_some {g : Grid} {x y : Nat} {p : Pos} (h : cell_at g x y = some p) :
    p = (x, y) ∧ x < g.width ∧ y < g.height := by
  unfold cell_at at h
  split at h
  case _ hin =>
    injection h with h2
    exact ⟨h2.symm, hin⟩
  · exact absurd h (by simp)

theorem partitionLoop_wallSym (rng : Nat → Nat) (walk : List WalkEdge)
    (a b : Nat) : ∀ (fuel ci k : Nat) (g g' : Grid) (k' : Nat),
    WallSym g →
    (∀ e ∈ walk, find_neighbor g (e.x, e.y) e.d = some (e.nx, e.ny)) →
    partitionLoop rng walk a b fuel ci k g = some (g', k') →
    WallSym g' ∧ g'.width = g.width ∧ g'.height = g.height := by
  intro fuel
  induction fuel with
  | zero => intro ci k g g' k' _ _ h; simp [partitionLoop] at h
  | succ n ih =>
    intro ci k g g' k' hs hedges h
    rw [partitionLoop] at h
    split at h
    · split at h
      · exact absurd h (by simp)
      · split at h
        · injection h with h2
          injection h2 with h3 h4
          rw [← h3]
          exact ⟨hs, rfl, rfl⟩
        case _ cut hcut hbreak =>
          dsimp only at h
          split at h
          case _ p q hp hq =>
            have hidx : ci + cut < walk.length := by omega
            have hmem : walk.getD (ci + cut) ⟨0, 0, Dir.N, 0, 0⟩ ∈ walk :=
              getD_mem_of_lt _ hidx
            have hE := hedges _ hmem
            obtain ⟨hpe, hpb⟩ := cell_at_some hp
            obtain ⟨hqe, _⟩ := cell_at_some hq
            have hfn : find_neighbor g p
                (walk.getD (ci + cut) ⟨0, 0, Dir.N, 0, 0⟩).d = some q := by
              rw [hpe, hqe]
              exact hE
            have hpb2 : p.1 < g.width ∧ p.2 < g.height := by
              rw [hpe]
              exact hpb
            have hsym2 := wallSym_set_wall WallKind.extra hs hpb2 hfn
            have hedges2 : ∀ e ∈ walk,
                find_neighbor ((set_wall g p q
                  (walk.getD (ci + cut) ⟨0, 0, Dir.N, 0, 0⟩).d WallKind.extra).2)
                  (e.x, e.y) e.d = some (e.nx, e.ny) := by
              intro e he
              rw [find_neighbor_set_wall]
              exact hedges e he
            have hres := ih _ _ _ _ _ hsym2 hedges2 h
            exact ⟨hres.1, hres.2.1, hres.2.2⟩
          · exact absurd h (by simp)
    · injection h with h2
      injection h2 with h3 h4
      rw [← h3]
      exact ⟨hs, rfl, rfl⟩

theorem make_all_cells_reachable_wallSym {rng : Nat → Nat} {w h k : Nat}
    {g1 : Grid} {k1 : Nat}
    (hm : make_all_cells_reachable rng w h k = some (g1, k1)) : WallSym g1 := by
  unfold make_all_cells_reachable at hm
  cases hca : cell_at (initGrid w h) 0 0 with
  | none =>
    rw [hca] at hm
    exact absurd hm (by simp)
  | some c =>
   have hc0 : c = (0, 0) := cell_at_zero_eq hca
   subst hc0
   rw [hca] at hm
   have hm2 : (carveLoop rng (2 * (w * h) + 1)
       ⟨initGrid w h, [], (0, 0), 1, k⟩).map (fun s => (s.g, s.k))
       = some (g1, k1) := hm
   cases hc : carveLoop rng (2 * (w * h) + 1) ⟨initGrid w h, [], (0, 0), 1, k⟩ with
   | none => rw [hc] at hm2; exact absurd hm2 (by simp)
   | some s =>
    rw [hc] at hm2
    simp at hm2
    have hg1 : s.g = g1 := hm2.1
    by_cases hn : 1 < w * h
    · have hw0 : 0 < w := by
        rcases Nat.eq_zero_or_pos w with h0 | h0
        · subst h0; simp at hn
        · exact h0
      have hh0 : 0 < h := by
        rcases Nat.eq_zero_or_pos h with h0 | h0
        · subst h0; simp at hn
        · exact h0
      rw [← hg1]
      exact carveLoop_wallSym rng _ _ _ hc (wallSym_init w h) ⟨hw0, hh0⟩
        (by intro p hp; simp at hp)
    · rw [carveLoop] at hc
      rw [if_neg (by simpa using hn)] at hc
      injection hc with hc2
      rw [← hg1, ← hc2]
      exact wallSym_init w h

/-- C6: wall symmetry is an invariant of every operation of the pipeline —
the fresh grid is symmetric, and at every stage the pipeline passes through
(after carving, after partitioning, after each optimizer pass, after the
interior-wall classification) every cell's wall kind toward a valid neighbor
equals the neighbor's wall kind back in the complementary direction: no
one-way wall ever exists. -/
theorem c6_wall_symmetry (rng : Nat → Nat) (w h sx sy mn mx : Nat) :
    ∀ g ∈ pipelineStages rng w h sx sy mn mx, WallSym g := by
  intro g hg
  unfold pipelineStages at hg
  cases hm : make_all_cells_reachable rng w h 0 with
  | none =>
    rw [hm] at hg
    simp only [List.mem_singleton] at hg
    rw [hg]
    exact wallSym_init w h
  | some r =>
    obtain ⟨g1, k1⟩ := r
    rw [hm] at hg
    dsimp only at hg
    have hsym1 : WallSym g1 := make_all_cells_reachable_wallSym hm
    have hdim1 := make_all_cells_reachable_dims rng w h 0 g1 k1 hm
    cases hw : dfs_walk g1 sx sy with
    | none =>
      rw [hw] at hg
      dsimp only at hg
      simp only [List.mem_cons, List.mem_singleton, List.not_mem_nil,
        or_false] at hg
      rcases hg with hg | hg
      · rw [hg]; exact wallSym_init w h
      · rw [hg]; exact hsym1
    | some walk =>
      rw [hw] at hg
      dsimp only at hg
      have hedges1 : ∀ e ∈ walk,
          find_neighbor g1 (e.x, e.y) e.d = some (e.nx, e.ny) := by
        intro e he
        exact (dfs_walk_edges hw e he).2.2
      cases hpart : partitionLoop rng walk mn mx (walk.length + 1) 0 k1 g1 with
      | none =>
        rw [hpart] at hg
        dsimp only at hg
        simp only [List.mem_cons, List.mem_singleton, List.not_mem_nil,
          or_false] at hg
        rcases hg with hg | hg
        · rw [hg]; exact wallSym_init w h
        · rw [hg]; exact hsym1
      | some r2 =>
        obtain ⟨g2, k2⟩ := r2
        rw [hpart] at hg
        dsimp only at hg
        have h2 := partitionLoop_wallSym rng walk mn mx _ _ _ _ _ _ hsym1
          hedges1 hpart
        cases hopt : optimize_small_pieces g2 mn with
        | none =>
          rw [hopt] at hg
          dsimp only at hg
          simp only [List.mem_cons, List.mem_singleton, List.not_mem_nil,
            or_false] at hg
          rcases hg with hg | hg | hg
          · rw [hg]; exact wallSym_init w h
          · rw [hg]; exact hsym1
          · rw [hg]; exact h2.1
        | some g3 =>
          rw [hopt] at hg
          dsimp only at hg
          have h3 := optimize_small_pieces_wallSym h2.1 hopt
          have h4 := optimize_square_pieces_wallSym rng g3 k2 h3.1
          have h5 := optimize_too_big_pieces_wallSym rng
            (optimize_square_pieces rng g3 k2).1 mn mx
            (optimize_square_pieces rng g3 k2).2 h4.1
          have h6 := find_interior_walls_wallSym
            (optimize_too_big_pieces rng (optimize_square_pieces rng g3 k2).1
              mn mx (optimize_square_pieces rng g3 k2).2).1 h5.1
          simp only [List.mem_cons, List.mem_singleton, List.not_mem_nil,
            or_false] at hg
          rcases hg with hg | hg | hg | hg | hg | hg | hg
          · rw [hg]; exact wallSym_init w h
          · rw [hg]; exact hsym1
          · rw [hg]; exact h2.1
          · rw [hg]; exact h3.1
          · rw [hg]; exact h4.1
          · rw [hg]; exact h5.1
          · rw [hg]; exact h6.1

theorem c6_wall_symmetry_witness :
    initGrid 2 2 ∈ pipelineStages rngZ 2 2 0 0 1 2 ∧ WallSym (initGrid 2 2) :=
  ⟨by unfold pipelineStages
      split
      · exact List.mem_cons_self _ _
      · split
        · exact List.mem_cons_self _ _
        · split
          · exact List.mem_cons_self _ _
          · split
            · exact List.mem_cons_self _ _
            · exact List.mem_cons_self _ _,
   c6_wall_symmetry rngZ 2 2 0 0 1 2 (initGrid 2 2)
     (by unfold pipelineStages
         split
         · exact List.mem_cons_self _ _
         · split
           · exact List.mem_cons_self _ _
           · split
             · exact List.mem_cons_self _ _
             · split
               · exact List.mem_cons_self _ _
               · exact List.mem_cons_self _ _)⟩

/-- C3 (amended): Pass A acts exactly on the cells whose reachable-set size at
processing time is below minComponentSize − 1 (the code's trigger is
`len < min_component_threshold - 1`, not `< min_component_threshold`); for an
acted-on cell it removes the wall toward the unreachable valid neighbor with
the smallest reachable count (the recorded count is that neighbor's count and
is minimal among all unreachable valid neighbors); cells at or above the
trigger are untouched, and the claimed postcondition fails: after Pass A a
cell may still have a reachable set smaller than minComponentSize (on `gEx3`
with minComponentSize 3, cell (0,0) ends with size 2). -/
theorem c3_amended_pass_a_trigger_and_merge :
    (∀ (g : Grid) (thr : Nat) (c : Pos),
      ¬ (all_reachable g c).length < thr - 1 → small_step g thr c = some g) ∧
    (∀ (g : Grid) (thr : Nat) (c q : Pos) (dir : Dir) (cnt : Nat),
      (all_reachable g c).length < thr - 1 →
      smallest_unreachable g c = (some (q, dir), cnt) →
      small_step g thr c = some (remove_wall g c q dir) ∧
      find_neighbor g c dir = some q ∧ is_reachable g c q = false ∧
      cnt = (all_reachable g q).length ∧
      (∀ n ∈ get_valid_neighbors g c, is_reachable g c n.2 = false →
        cnt ≤ (all_reachable g n.2).length)) ∧
    (optimize_small_pieces gEx3 3).map
      (fun g => (all_reachable g (0, 0)).length) = some 2 := by
  refine ⟨?_, ?_, by decide⟩
  · intro g thr c hno
    exact small_step_no_action g thr c hno
  · intro g thr c q dir cnt htrig hres
    obtain ⟨h1, h2, h3, h4⟩ := smallest_unreachable_spec g c q dir cnt hres
    exact ⟨small_step_acts g thr c q dir cnt htrig hres, h1, h2, h3, h4⟩

theorem c3_amended_witness :
    ((all_reachable gEx3 (0, 1)).length < 3 - 1 ∧
     smallest_unreachable gEx3 (0, 1) = (some ((1, 1), Dir.E), 1)) ∧
    (small_step gEx3 3 (0, 1) =
        some (remove_wall gEx3 (0, 1) (1, 1) Dir.E) ∧
      find_neighbor gEx3 (0, 1) Dir.E = some (1, 1) ∧
      is_reachable gEx3 (0, 1) (1, 1) = false ∧
      1 = (all_reachable gEx3 (1, 1)).length ∧
      (∀ n ∈ get_valid_neighbors gEx3 (0, 1),
        is_reachable gEx3 (0, 1) n.2 = false →
        1 ≤ (all_reachable gEx3 n.2).length)) :=
  ⟨⟨by decide, by decide⟩,
   c3_amended_pass_a_trigger_and_merge.2.1 gEx3 3 (0, 1) (1, 1) Dir.E 1
     (by decide) (by decide)⟩

theorem ar_head (g : Grid) (fuel : Nat) (cell : Pos) (seen : List Pos) :
    cell ∈ (all_reachable_recursive g fuel cell seen).1 := by
  cases fuel with
  | zero => exact List.mem_cons_self _ _
  | succ n =>
    rw [all_reachable_recursive]
    exact List.mem_cons_self _ _

theorem ar_seen_grows (g : Grid) : ∀ (fuel : Nat) (cell : Pos) (seen : List Pos),
    seen <+: (all_reachable_recursive g fuel cell seen).2 := by
  intro fuel
  induction fuel with
  | zero => intro cell seen; exact List.prefix_refl _
  | succ fu ih =>
    intro cell seen
    rw [all_reachable_recursive]
    dsimp only
    have hfold : ∀ (l : List (Dir × Pos)) (acc : List Pos × List Pos),
        acc.2 <+: (l.foldl (fun acc n =>
          if n.2 ∈ acc.2 then acc
          else (acc.1 ++ (all_reachable_recursive g fu n.2 (acc.2 ++ [n.2])).1,
            (all_reachable_recursive g fu n.2 (acc.2 ++ [n.2])).2)) acc).2 := by
      intro l
      induction l with
      | nil => intro acc; exact List.prefix_refl _
      | cons n2 rest ihl =>
        intro acc
        rw [List.foldl_cons]
        by_cases hmem : n2.2 ∈ acc.2
        · rw [if_pos hmem]; exact ihl acc
        · rw [if_neg hmem]
          refine List.IsPrefix.trans ?_ (ihl _)
          refine List.IsPrefix.trans ⟨[n2.2], rfl⟩ ?_
          exact ih n2.2 (acc.2 ++ [n2.2])
    exact hfold (get_directly_reachable_neighbors g cell) ([], seen)

theorem ar_result_extend (g : Grid) : ∀ (fuel : Nat) (cell : Pos)
    (seen : List Pos) (p : Pos), p ∈ (all_reachable_recursive g fuel cell seen).2 →
    p ∈ seen ∨ p ∈ (all_reachable_recursive g fuel cell seen).1 := by
  intro fuel
  induction fuel with
  | zero => intro cell seen p hp; exact Or.inl hp
  | succ fu ih =>
    intro cell seen p hp
    rw [all_reachable_recursive] at hp ⊢
    dsimp only at hp ⊢
    have hfold : ∀ (l : List (Dir × Pos)) (acc : List Pos × List Pos),
        (∀ q ∈ acc.2, q ∈ seen ∨ q ∈ acc.1) →
        ∀ q ∈ (l.foldl (fun acc n =>
          if n.2 ∈ acc.2 then acc
          else (acc.1 ++ (all_reachable_recursive g fu n.2 (acc.2 ++ [n.2])).1,
            (all_reachable_recursive g fu n.2 (acc.2 ++ [n.2])).2)) acc).2,
          q ∈ seen ∨ q ∈ (l.foldl (fun acc n =>
          if n.2 ∈ acc.2 then acc
          else (acc.1 ++ (all_reachable_recursive g fu n.2 (acc.2 ++ [n.2])).1,
            (all_reachable_recursive g fu n.2 (acc.2 ++ [n.2])).2)) acc).1 := by
      intro l
      induction l with
      | nil => intro acc hacc q hq; exact hacc q hq
      | cons n2 rest ihl =>
        intro acc hacc q hq
        rw [List.foldl_cons] at hq ⊢
        by_cases hmem : n2.2 ∈ acc.2
        · rw [if_pos hmem] at hq ⊢
          exact ihl acc hacc q hq
        · rw [if_neg hmem] at hq ⊢
          refine ihl _ ?_ q hq
          intro q2 hq2
          rcases ih n2.2 (acc.2 ++ [n2.2]) q2 hq2 with h2 | h2
          · rcases List.mem_append.mp h2 with h3 | h3
            · rcases hacc q2 h3 with h4 | h4
              · exact Or.inl h4
              · exact Or.inr (List.mem_append_left _ h4)
            · right
              refine List.mem_append_right _ ?_
              rw [List.mem_singleton] at h3
              rw [h3]
              exact ar_head g fu n2.2 (acc.2 ++ [n2.2])
          · exact Or.inr (List.mem_append_right _ h2)
      
    have hres := hfold (get_directly_reachable_neighbors g cell) ([], seen)
      (by intro q hq; exact Or.inl hq) p hp
    rcases hres with h | h
    · exact Or.inl h
    · exact Or.inr (List.mem_cons_of_mem _ h)

theorem nodup_bounded_length_le (g : Grid) (l : List Pos) (hn : l.Nodup)
    (hb : ∀ p ∈ l, p.1 < g.width ∧ p.2 < g.height) :
    l.length ≤ g.width * g.height := by
  have h1 : l.toFinset.card = l.length := List.toFinset_card_of_nodup hn
  have h2 : l.toFinset ⊆ Finset.range g.width ×ˢ Finset.range g.height := by
    intro p hp
    rw [List.mem_toFinset] at hp
    have hb2 := hb p hp
    rw [Finset.mem_product, Finset.mem_range, Finset.mem_range]
    exact hb2
  have h3 := Finset.card_le_card h2
  rw [h1, Finset.card_product, Finset.card_range, Finset.card_range] at h3
  exact h3

theorem ar_closure (g : Grid) : ∀ (fuel : Nat) (cell : Pos) (seen : List Pos),
    cell ∈ seen → seen.Nodup →
    (∀ p ∈ seen, p.1 < g.width ∧ p.2 < g.height) →
    g.width * g.height + 1 ≤ fuel + seen.length →
    ((all_reachable_recursive g fuel cell seen).2).Nodup ∧
    (∀ p ∈ (all_reachable_recursive g fuel cell seen).2,
      p.1 < g.width ∧ p.2 < g.height) ∧
    (∀ n ∈ get_directly_reachable_neighbors g cell,
      n.2 ∈ (all_reachable_recursive g fuel cell seen).2) ∧
    (∀ p ∈ (all_reachable_recursive g fuel cell seen).2, p ∉ seen →
      ∀ n ∈ get_directly_reachable_neighbors g p,
        n.2 ∈ (all_reachable_recursive g fuel cell seen).2) := by
  intro fuel
  induction fuel with
  | zero =>
    intro cell seen _ hnd hbd hfuel
    exfalso
    have := nodup_bounded_length_le g seen hnd hbd
    omega
  | succ fu ih =>
    intro cell seen hcell hnd hbd hfuel
    rw [all_reachable_recursive]
    dsimp only
    have hfold : ∀ (l : List (Dir × Pos)) (acc : List Pos × List Pos),
        (∀ n ∈ l, find_neighbor g cell n.1 = some n.2) →
        acc.2.Nodup →
        (∀ p ∈ acc.2, p.1 < g.width ∧ p.2 < g.height) →
        g.width * g.height ≤ fu + acc.2.length →
        (∀ p ∈ acc.2, p ∉ seen →
          ∀ n ∈ get_directly_reachable_neighbors g p, n.2 ∈ acc.2) →
        (((l.foldl (fun acc n =>
          if n.2 ∈ acc.2 then acc
          else (acc.1 ++ (all_reachable_recursive g fu n.2 (acc.2 ++ [n.2])).1,
            (all_reachable_recursive g fu n.2 (acc.2 ++ [n.2])).2)) acc)).2).Nodup ∧
        (∀ p ∈ ((l.foldl (fun acc n =>
          if n.2 ∈ acc.2 then acc
          else (acc.1 ++ (all_reachable_recursive g fu n.2 (acc.2 ++ [n.2])).1,
            (all_reachable_recursive g fu n.2 (acc.2 ++ [n.2])).2)) acc)).2,
          p.1 < g.width ∧ p.2 < g.height) ∧
        (∀ n ∈ l, n.2 ∈ ((l.foldl (fun acc n =>
          if n.2 ∈ acc.2 then acc
          else (acc.1 ++ (all_reachable_recursive g fu n.2 (acc.2 ++ [n.2])).1,
            (all_reachable_recursive g fu n.2 (acc.2 ++ [n.2])).2)) acc)).2) ∧
        (acc.2 <+: ((l.foldl (fun acc n =>
          if n.2 ∈ acc.2 then acc
          else (acc.1 ++ (all_reachable_recursive g fu n.2 (acc.2 ++ [n.2])).1,
            (all_reachable_recursive g fu n.2 (acc.2 ++ [n.2])).2)) acc)).2) ∧
        (∀ p ∈ ((l.foldl (fun acc n =>
          if n.2 ∈ acc.2 then acc
          else (acc.1 ++ (all_reachable_recursive g fu n.2 (acc.2 ++ [n.2])).1,
            (all_reachable_recursive g fu n.2 (acc.2 ++ [n.2])).2)) acc)).2, p ∉ seen →
          ∀ n ∈ get_directly_reachable_neighbors g p,
            n.2 ∈ ((l.foldl (fun acc n =>
          if n.2 ∈ acc.2 then acc
          else (acc.1 ++ (all_reachable_recursive g fu n.2 (acc.2 ++ [n.2])).1,
            (all_reachable_recursive g fu n.2 (acc.2 ++ [n.2])).2)) acc)).2) := by
      intro l
      induction l with
      | nil =>
        intro acc _ h1 h2 _ h4
        exact ⟨h1, h2, by simp, List.prefix_refl _, h4⟩
      | cons m rest ihl =>
        intro acc hl h1 h2 h3 h4
        rw [List.foldl_cons]
        by_cases hmem : m.2 ∈ acc.2
        · rw [if_pos hmem]
          obtain ⟨o1, o2, o3, o4, o5⟩ := ihl acc
            (fun n hn => hl n (List.mem_cons_of_mem _ hn)) h1 h2 h3 h4
          refine ⟨o1, o2, ?_, o4, o5⟩
          intro n hn
          rcases List.mem_cons.mp hn with he | hn2
          · rw [he]
            exact o4.subset hmem
          · exact o3 n hn2
        · rw [if_neg hmem]
          have hmb := find_neighbor_bounds (hl m (List.mem_cons_self _ _))
          obtain ⟨r1, r2, r3, r4⟩ := ih m.2 (acc.2 ++ [m.2])
            (List.mem_append_right _ (List.mem_singleton.mpr rfl))
            (by
              rw [List.nodup_append]
              refine ⟨h1, List.nodup_singleton _, ?_⟩
              intro a ha hb
              rw [List.mem_singleton] at hb
              rw [hb] at ha
              exact hmem ha)
            (by
              intro p hp
              rcases List.mem_append.mp hp with h5 | h5
              · exact h2 p h5
              · rw [List.mem_singleton] at h5
                rw [h5]
                exact hmb)
            (by
              rw [List.length_append, List.length_singleton]
              omega)
          have hpre : (acc.2 ++ [m.2]) <+:
              (all_reachable_recursive g fu m.2 (acc.2 ++ [m.2])).2 :=
            ar_seen_grows g fu m.2 (acc.2 ++ [m.2])
          have hlen : acc.2.length + 1 ≤
              (all_reachable_recursive g fu m.2 (acc.2 ++ [m.2])).2.length := by
            have hle := hpre.length_le
            rw [List.length_append, List.length_singleton] at hle
            omega
          obtain ⟨o1, o2, o3, o4, o5⟩ := ihl
            (acc.1 ++ (all_reachable_recursive g fu m.2 (acc.2 ++ [m.2])).1,
              (all_reachable_recursive g fu m.2 (acc.2 ++ [m.2])).2)
            (fun n hn => hl n (List.mem_cons_of_mem _ hn))
            r1 r2 (by dsimp only; omega)
            (by
              dsimp only
              intro p hp hps n hn
              by_cases hpa : p ∈ acc.2
              · exact hpre.subset (List.mem_append_left _ (h4 p hpa hps n hn))
              · by_cases hpm : p = m.2
                · refine r3 n ?_
                  rw [← hpm]
                  exact hn
                · refine r4 p hp ?_ n hn
                  intro hc
                  rcases List.mem_append.mp hc with h5 | h5
                  · exact hpa h5
                  · exact hpm (List.mem_singleton.mp h5))
          refine ⟨o1, o2, ?_, ?_, o5⟩
          · intro n hn
            rcases List.mem_cons.mp hn with he | hn2
            · rw [he]
              refine o4.subset ?_
              dsimp only
              exact hpre.subset (List.mem_append_right _ (List.mem_singleton.mpr rfl))
            · exact o3 n hn2
          · refine List.IsPrefix.trans ?_ o4
            dsimp only
            exact List.IsPrefix.trans ⟨[m.2], rfl⟩ hpre
    have hres := hfold (get_directly_reachable_neighbors g cell) ([], seen)
      (fun n hn => (mem_gdrn hn).1) hnd hbd
      (by dsimp only; omega)
      (by dsimp only; intro p hp hps; exact absurd hp hps)
    exact ⟨hres.1, hres.2.1, hres.2.2.1, hres.2.2.2.2⟩

theorem reach_mem_all_reachable {g : Grid} {a b : Pos}
    (ha : a.1 < g.width ∧ a.2 < g.height) (hr : Reach g a b) :
    b ∈ all_reachable g a := by
  unfold all_reachable
  obtain ⟨c1, c2, c3, c4⟩ := ar_closure g (g.width * g.height) a [a]
    (List.mem_singleton.mpr rfl) (List.nodup_singleton _)
    (by intro p hp; rw [List.mem_singleton] at hp; rw [hp]; exact ha)
    (by rw [List.length_singleton])
  have hmemS : b ∈ (all_reachable_recursive g (g.width * g.height) a [a]).2 := by
    induction hr with
    | refl => exact (ar_seen_grows g _ a [a]).subset (List.mem_singleton.mpr rfl)
    | @tail mid bc hab hbc ihm =>
      obtain ⟨d, hfn, habs⟩ := hbc
      have hgd : (d, bc) ∈ get_directly_reachable_neighbors g mid := by
        unfold get_directly_reachable_neighbors
        rw [List.mem_filter]
        refine ⟨mem_get_valid_neighbors.mpr hfn, ?_⟩
        simp [has_wall, habs]
      by_cases hma : mid = a
      · subst hma
        exact c3 (d, bc) hgd
      · exact c4 mid ihm (by simpa using hma) (d, bc) hgd
  rcases ar_result_extend g _ a [a] b hmemS with h | h
  · rw [List.mem_singleton] at h
    rw [h]
    exact ar_head g _ a [a]
  · exact h

theorem reach_is_reachable {g : Grid} {a b : Pos}
    (ha : a.1 < g.width ∧ a.2 < g.height) (hr : Reach g a b) :
    is_reachable g a b = true := by
  unfold is_reachable
  have hm := reach_mem_all_reachable ha hr
  exact List.elem_eq_true_of_mem hm

theorem disc_iff (g : Grid) (p : Pos) :
    is_completely_disconnected g p = true ↔
      ∀ d : Dir, g.walls p.1 p.2 d = WallKind.normal := by
  unfold is_completely_disconnected
  rw [beq_iff_eq]
  constructor
  · intro hlen d
    have hsub : List.Sublist ([Dir.N, Dir.S, Dir.E, Dir.W].filter
        (fun d => g.walls p.1 p.2 d == WallKind.normal))
        [Dir.N, Dir.S, Dir.E, Dir.W] := List.filter_sublist _
    have heq := hsub.eq_of_length (by rw [hlen]; rfl)
    have hall := List.filter_eq_self.mp heq
    have hd := hall d (by cases d <;> simp)
    simpa using hd
  · intro hall
    have heq : ([Dir.N, Dir.S, Dir.E, Dir.W].filter
        (fun d => g.walls p.1 p.2 d == WallKind.normal)) =
        [Dir.N, Dir.S, Dir.E, Dir.W] := by
      refine List.filter_eq_self.mpr ?_
      intro a _
      simp [hall a]
    rw [heq]
    rfl

theorem disc_false_of_wall {g : Grid} {p : Pos} {d : Dir}
    (h : g.walls p.1 p.2 d ≠ WallKind.normal) :
    is_completely_disconnected g p = false := by
  rcases hv : is_completely_disconnected g p with _ | _
  · rfl
  · exact absurd ((disc_iff g p).mp hv d) h

theorem mem_VisitedSet {g : Grid} {p : Pos} :
    p ∈ VisitedSet g ↔ (p.1 < g.width ∧ p.2 < g.height) ∧
      (is_completely_disconnected g p = false ∨ p = (0, 0)) := by
  unfold VisitedSet
  rw [Finset.mem_filter, Finset.mem_product, Finset.mem_range, Finset.mem_range]

theorem zero_mem_VisitedSet {g : Grid} (hw : 0 < g.width) (hh : 0 < g.height) :
    ((0, 0) : Pos) ∈ VisitedSet g := by
  rw [mem_VisitedSet]
  exact ⟨⟨hw, hh⟩, Or.inr rfl⟩

theorem VisitedSet_card_le (g : Grid) :
    (VisitedSet g).card ≤ g.width * g.height := by
  have h1 : VisitedSet g ⊆ Finset.range g.width ×ˢ Finset.range g.height :=
    Finset.filter_subset _ _
  have h2 := Finset.card_le_card h1
  rwa [Finset.card_product, Finset.card_range, Finset.card_range] at h2

theorem remove_wall_walls_other (g : Grid) (p q : Pos) (d : Dir) (x y : Nat)
    (d2 : Dir) (hp : ¬(x = p.1 ∧ y = p.2)) (hq : ¬(x = q.1 ∧ y = q.2)) :
    (remove_wall g p q d).walls x y d2 = g.walls x y d2 := by
  rw [remove_wall_eq_set_wall, set_wall_walls]
  rw [if_neg (fun hc => hq ⟨hc.1, hc.2.1⟩), if_neg (fun hc => hp ⟨hc.1, hc.2.1⟩)]

theorem disc_remove_wall_other (g : Grid) (p q r : Pos) (d : Dir)
    (hp : r ≠ p) (hq : r ≠ q) :
    is_completely_disconnected (remove_wall g p q d) r =
      is_completely_disconnected g r := by
  unfold is_completely_disconnected
  have hcongr : ∀ d2 ∈ [Dir.N, Dir.S, Dir.E, Dir.W],
      ((remove_wall g p q d).walls r.1 r.2 d2 == WallKind.normal) =
      (g.walls r.1 r.2 d2 == WallKind.normal) := by
    intro d2 _
    rw [remove_wall_walls_other]
    · intro hc
      exact hp (Prod.ext hc.1 hc.2)
    · intro hc
      exact hq (Prod.ext hc.1 hc.2)
  rw [List.filter_congr hcongr]

theorem remove_wall_self_absent (g : Grid) (p q : Pos) (d : Dir) :
    (remove_wall g p q d).walls p.1 p.2 d = WallKind.absent := by
  rw [remove_wall_eq_set_wall, set_wall_walls]
  split_ifs with h1 h2
  · rfl
  · rfl
  · exact absurd ⟨rfl, rfl, rfl⟩ h2

theorem remove_wall_other_absent (g : Grid) (p q : Pos) (d : Dir) :
    (remove_wall g p q d).walls q.1 q.2 (compliment d) = WallKind.absent := by
  rw [remove_wall_eq_set_wall, set_wall_walls]
  rw [if_pos ⟨rfl, rfl, rfl⟩]

theorem find_neighbor_remove_wall (g : Grid) (p q : Pos) (d : Dir) (r : Pos)
    (d2 : Dir) :
    find_neighbor (remove_wall g p q d) r d2 = find_neighbor g r d2 := by
  rw [remove_wall_eq_set_wall]
  exact find_neighbor_set_wall g p q d WallKind.absent r d2

theorem not_mem_VisitedSet_of_disc {g : Grid} {p : Pos}
    (hd : is_completely_disconnected g p = true) (h0 : p ≠ (0, 0)) :
    p ∉ VisitedSet g := by
  rw [mem_VisitedSet]
  rintro ⟨_, h | h⟩
  · rw [hd] at h
    exact absurd h (by simp)
  · exact h0 h

theorem VisitedSet_insert (g : Grid) (cur qp : Pos) (d : Dir)
    (hfn : find_neighbor g cur d = some qp)
    (hcur : cur ∈ VisitedSet g)
    (hqne0 : qp ≠ (0, 0)) :
    VisitedSet (remove_wall g cur qp d) = insert qp (VisitedSet g) := by
  have hqb := find_neighbor_bounds hfn
  ext r
  rw [mem_VisitedSet, Finset.mem_insert, mem_VisitedSet]
  by_cases hrq : r = qp
  · subst hrq
    simp only [remove_wall_width, remove_wall_height]
    constructor
    · intro _
      exact Or.inl (by trivial)
    · intro _
      refine ⟨hqb, Or.inl ?_⟩
      apply disc_false_of_wall
      rw [remove_wall_other_absent]
      simp
  · by_cases hrc : r = cur
    · subst hrc
      simp only [remove_wall_width, remove_wall_height]
      have hrb := (mem_VisitedSet.mp hcur).1
      constructor
      · intro _
        right
        exact mem_VisitedSet.mp hcur
      · intro _
        refine ⟨hrb, Or.inl ?_⟩
        apply disc_false_of_wall
        rw [remove_wall_self_absent]
        simp
    · simp only [remove_wall_width, remove_wall_height]
      rw [disc_remove_wall_other g cur qp r d hrc hrq]
      constructor
      · intro hx
        exact Or.inr hx
      · intro hx
        rcases hx with hx | hx
        · exact absurd hx hrq
        · exact hx

theorem pos_ne_iff {r p : Pos} : r ≠ p ↔ (r.1 ≠ p.1 ∨ r.2 ≠ p.2) := by
  constructor
  · intro h
    by_cases h1 : r.1 = p.1
    · right
      intro h2
      exact h (Prod.ext h1 h2)
    · left
      exact h1
  · intro h hc
    subst hc
    rcases h with h | h <;> exact h rfl

theorem remove_wall_walls_entry (g : Grid) (p q : Pos) (d : Dir) (x y : Nat)
    (d2 : Dir) (h1 : x ≠ p.1 ∨ y ≠ p.2 ∨ d2 ≠ d)
    (h2 : x ≠ q.1 ∨ y ≠ q.2 ∨ d2 ≠ compliment d) :
    (remove_wall g p q d).walls x y d2 = g.walls x y d2 := by
  have hn2 : ¬(x = q.1 ∧ y = q.2 ∧ d2 = compliment d) := by
    intro hc
    rcases h2 with h | h | h
    · exact h hc.1
    · exact h hc.2.1
    · exact h hc.2.2
  have hn1 : ¬(x = p.1 ∧ y = p.2 ∧ d2 = d) := by
    intro hc
    rcases h1 with h | h | h
    · exact h hc.1
    · exact h hc.2.1
    · exact h hc.2.2
  rw [remove_wall_eq_set_wall, set_wall_walls, if_neg hn2, if_neg hn1]

theorem sum_update_one (S : Finset Pos) (f f2 : Pos → Nat) (t : Pos)
    (ht : t ∈ S) (hagree : ∀ r ∈ S, r ≠ t → f2 r = f r)
    (hinc : f2 t = f t + 1) : S.sum f2 = S.sum f + 1 := by
  rw [← Finset.sum_erase_add S f2 ht, ← Finset.sum_erase_add S f ht, hinc]
  rw [Finset.sum_congr rfl
    (fun r hr => hagree r (Finset.mem_of_mem_erase hr) (Finset.ne_of_mem_erase hr))]
  show (S.erase t).sum f + (f t + 1) = (S.erase t).sum f + f t + 1
  omega

theorem absentSharedCount_remove_wall (g : Grid) (p q : Pos) (d : Dir)
    (hp : p.1 < g.width ∧ p.2 < g.height)
    (hfn : find_neighbor g p d = some q)
    (hpw : g.walls p.1 p.2 d ≠ WallKind.absent)
    (hqw : g.walls q.1 q.2 (compliment d) ≠ WallKind.absent) :
    absentSharedCount (remove_wall g p q d) = absentSharedCount g + 1 := by
  cases d
  case N =>
    simp only [find_neighbor, Option.ite_none_right_eq_some, Option.some.injEq] at hfn
    obtain ⟨hc, hqe⟩ := hfn
    subst hqe
    unfold absentSharedCount
    simp only [remove_wall_width, remove_wall_height]
    refine sum_update_one _ _ _ (p.1, p.2 - 1) ?_ ?_ ?_
    · rw [Finset.mem_product, Finset.mem_range, Finset.mem_range]
      exact ⟨hc.2.2, hc.2.1⟩
    · intro r hr hrt
      dsimp only
      have hE : (remove_wall g p (p.1, p.2 - 1) Dir.N).walls r.1 r.2 Dir.E
          = g.walls r.1 r.2 Dir.E := by
        apply remove_wall_walls_entry
        · right; right; decide
        · right; right; decide
      have hS : (remove_wall g p (p.1, p.2 - 1) Dir.N).walls r.1 r.2 Dir.S
          = g.walls r.1 r.2 Dir.S := by
        apply remove_wall_walls_entry
        · right; right; decide
        · rcases pos_ne_iff.mp hrt with h | h
          · left; exact h
          · right; left; exact h
      rw [hE, hS]
    · dsimp only
      have hS2 : (remove_wall g p (p.1, p.2 - 1) Dir.N).walls p.1 (p.2 - 1) Dir.S
          = WallKind.absent :=
        remove_wall_other_absent g p (p.1, p.2 - 1) Dir.N
      have hE2 : (remove_wall g p (p.1, p.2 - 1) Dir.N).walls p.1 (p.2 - 1) Dir.E
          = g.walls p.1 (p.2 - 1) Dir.E := by
        apply remove_wall_walls_entry
        · right; right; decide
        · right; right; decide
      rw [hE2, hS2]
      have hcnd : p.2 - 1 + 1 < g.height := by omega
      have hpos : p.2 - 1 + 1 < g.height ∧
          (WallKind.absent : WallKind) = WallKind.absent := ⟨hcnd, rfl⟩
      have hneg : ¬(p.2 - 1 + 1 < g.height ∧
          g.walls p.1 (p.2 - 1) Dir.S = WallKind.absent) := fun hcc => hqw hcc.2
      rw [if_pos hpos, if_neg hneg]
  case S =>
    simp only [find_neighbor, Option.ite_none_right_eq_some, Option.some.injEq] at hfn
    obtain ⟨hc, hqe⟩ := hfn
    subst hqe
    unfold absentSharedCount
    simp only [remove_wall_width, remove_wall_height]
    refine sum_update_one _ _ _ p ?_ ?_ ?_
    · rw [Finset.mem_product, Finset.mem_range, Finset.mem_range]
      exact ⟨hc.2, hp.2⟩
    · intro r hr hrt
      dsimp only
      have hE : (remove_wall g p (p.1, p.2 + 1) Dir.S).walls r.1 r.2 Dir.E
          = g.walls r.1 r.2 Dir.E := by
        apply remove_wall_walls_entry
        · right; right; decide
        · right; right; decide
      have hS : (remove_wall g p (p.1, p.2 + 1) Dir.S).walls r.1 r.2 Dir.S
          = g.walls r.1 r.2 Dir.S := by
        apply remove_wall_walls_entry
        · rcases pos_ne_iff.mp hrt with h | h
          · left; exact h
          · right; left; exact h
        · right; right; decide
      rw [hE, hS]
    · dsimp only
      have hS2 : (remove_wall g p (p.1, p.2 + 1) Dir.S).walls p.1 p.2 Dir.S
          = WallKind.absent :=
        remove_wall_self_absent g p (p.1, p.2 + 1) Dir.S
      have hE2 : (remove_wall g p (p.1, p.2 + 1) Dir.S).walls p.1 p.2 Dir.E
          = g.walls p.1 p.2 Dir.E := by
        apply remove_wall_walls_entry
        · right; right; decide
        · right; right; decide
      rw [hE2, hS2]
      have hpos : p.2 + 1 < g.height ∧
          (WallKind.absent : WallKind) = WallKind.absent := ⟨hc.1, rfl⟩
      have hneg : ¬(p.2 + 1 < g.height ∧
          g.walls p.1 p.2 Dir.S = WallKind.absent) := fun hcc => hpw hcc.2
      rw [if_pos hpos, if_neg hneg]
  case E =>
    simp only [find_neighbor, Option.ite_none_right_eq_some, Option.some.injEq] at hfn
    obtain ⟨hc, hqe⟩ := hfn
    subst hqe
    unfold absentSharedCount
    simp only [remove_wall_width, remove_wall_height]
    refine sum_update_one _ _ _ p ?_ ?_ ?_
    · rw [Finset.mem_product, Finset.mem_range, Finset.mem_range]
      exact ⟨hp.1, hc.2⟩
    · intro r hr hrt
      dsimp only
      have hE : (remove_wall g p (p.1 + 1, p.2) Dir.E).walls r.1 r.2 Dir.E
          = g.walls r.1 r.2 Dir.E := by
        apply remove_wall_walls_entry
        · rcases pos_ne_iff.mp hrt with h | h
          · left; exact h
          · right; left; exact h
        · right; right; decide
      have hS : (remove_wall g p (p.1 + 1, p.2) Dir.E).walls r.1 r.2 Dir.S
          = g.walls r.1 r.2 Dir.S := by
        apply remove_wall_walls_entry
        · right; right; decide
        · right; right; decide
      rw [hE, hS]
    · dsimp only
      have hE2 : (remove_wall g p (p.1 + 1, p.2) Dir.E).walls p.1 p.2 Dir.E
          = WallKind.absent :=
        remove_wall_self_absent g p (p.1 + 1, p.2) Dir.E
      have hS2 : (remove_wall g p (p.1 + 1, p.2) Dir.E).walls p.1 p.2 Dir.S
          = g.walls p.1 p.2 Dir.S := by
        apply remove_wall_walls_entry
        · right; right; decide
        · right; right; decide
      rw [hE2, hS2]
      have hpos : p.1 + 1 < g.width ∧
          (WallKind.absent : WallKind) = WallKind.absent := ⟨hc.1, rfl⟩
      have hneg : ¬(p.1 + 1 < g.width ∧
          g.walls p.1 p.2 Dir.E = WallKind.absent) := fun hcc => hpw hcc.2
      rw [if_pos hpos, if_neg hneg]
      omega
  case W =>
    simp only [find_neighbor, Option.ite_none_right_eq_some, Option.some.injEq] at hfn
    obtain ⟨hc, hqe⟩ := hfn
    subst hqe
    unfold absentSharedCount
    simp only [remove_wall_width, remove_wall_height]
    refine sum_update_one _ _ _ (p.1 - 1, p.2) ?_ ?_ ?_
    · rw [Finset.mem_product, Finset.mem_range, Finset.mem_range]
      exact ⟨hc.2.1, hc.2.2⟩
    · intro r hr hrt
      dsimp only
      have hE : (remove_wall g p (p.1 - 1, p.2) Dir.W).walls r.1 r.2 Dir.E
          = g.walls r.1 r.2 Dir.E := by
        apply remove_wall_walls_entry
        · right; right; decide
        · rcases pos_ne_iff.mp hrt with h | h
          · left; exact h
          · right; left; exact h
      have hS : (remove_wall g p (p.1 - 1, p.2) Dir.W).walls r.1 r.2 Dir.S
          = g.walls r.1 r.2 Dir.S := by
        apply remove_wall_walls_entry
        · right; right; decide
        · right; right; decide
      rw [hE, hS]
    · dsimp only
      have hE2 : (remove_wall g p (p.1 - 1, p.2) Dir.W).walls (p.1 - 1) p.2 Dir.E
          = WallKind.absent :=
        remove_wall_other_absent g p (p.1 - 1, p.2) Dir.W
      have hS2 : (remove_wall g p (p.1 - 1, p.2) Dir.W).walls (p.1 - 1) p.2 Dir.S
          = g.walls (p.1 - 1) p.2 Dir.S := by
        apply remove_wall_walls_entry
        · right; right; decide
        · right; right; decide
      rw [hE2, hS2]
      have hcnd : p.1 - 1 + 1 < g.width := by omega
      have hpos : p.1 - 1 + 1 < g.width ∧
          (WallKind.absent : WallKind) = WallKind.absent := ⟨hcnd, rfl⟩
      have hneg : ¬(p.1 - 1 + 1 < g.width ∧
          g.walls (p.1 - 1) p.2 Dir.E = WallKind.absent) := fun hcc => hqw hcc.2
      rw [if_pos hpos, if_neg hneg]
      omega

theorem remove_wall_walls_cases (g : Grid) (p q : Pos) (d : Dir) (x y : Nat)
    (d2 : Dir) :
    (remove_wall g p q d).walls x y d2 = WallKind.absent ∨
      (remove_wall g p q d).walls x y d2 = g.walls x y d2 := by
  rw [remove_wall_eq_set_wall, set_wall_walls]
  split_ifs
  · exact Or.inl rfl
  · exact Or.inl rfl
  · exact Or.inr rfl

theorem remove_wall_absent_mono {g : Grid} (p q : Pos) (d : Dir) {x y : Nat}
    {d2 : Dir} (h : g.walls x y d2 = WallKind.absent) :
    (remove_wall g p q d).walls x y d2 = WallKind.absent := by
  rcases remove_wall_walls_cases g p q d x y d2 with hc | hc
  · exact hc
  · rw [hc, h]

theorem disc_false_mono {g : Grid} (p q : Pos) (d : Dir) {r : Pos}
    (h : is_completely_disconnected g r = false) :
    is_completely_disconnected (remove_wall g p q d) r = false := by
  have hex : ∃ d2, g.walls r.1 r.2 d2 ≠ WallKind.normal := by
    by_contra hall
    push_neg at hall
    have htr : is_completely_disconnected g r = true := (disc_iff g r).mpr hall
    rw [htr] at h
    exact absurd h (by decide)
  obtain ⟨d2, hd2⟩ := hex
  rcases remove_wall_walls_cases g p q d r.1 r.2 d2 with hc | hc
  · exact @disc_false_of_wall (remove_wall g p q d) r d2 (by rw [hc]; decide)
  · exact @disc_false_of_wall (remove_wall g p q d) r d2 (by rw [hc]; exact hd2)

theorem adj_remove_wall_mono {g : Grid} (p q : Pos) (d : Dir) {a b : Pos}
    (h : Adj g a b) : Adj (remove_wall g p q d) a b := by
  obtain ⟨d2, hfn, hw⟩ := h
  exact ⟨d2, by rw [find_neighbor_remove_wall]; exact hfn,
    remove_wall_absent_mono p q d hw⟩

theorem reach_remove_wall_mono {g : Grid} (p q : Pos) (d : Dir) {a b : Pos}
    (h : Reach g a b) : Reach (remove_wall g p q d) a b :=
  Relation.ReflTransGen.mono (fun _ _ hxy => adj_remove_wall_mono p q d hxy) h

theorem adj_remove_wall_new {g : Grid} {p q : Pos} {d : Dir}
    (hfn : find_neighbor g p d = some q) :
    Adj (remove_wall g p q d) p q :=
  ⟨d, by rw [find_neighbor_remove_wall]; exact hfn,
    remove_wall_self_absent g p q d⟩

theorem adj_bounds {g : Grid} {a b : Pos} (h : Adj g a b) :
    b.1 < g.width ∧ b.2 < g.height := by
  obtain ⟨d, hfn, _⟩ := h
  exact find_neighbor_bounds hfn

theorem reach_bounds {g : Grid} {a b : Pos}
    (ha : a.1 < g.width ∧ a.2 < g.height) (h : Reach g a b) :
    b.1 < g.width ∧ b.2 < g.height := by
  induction h with
  | refl => exact ha
  | tail h1 h2 ih => exact adj_bounds h2

theorem adj_symm {g : Grid} (hsym : WallSym g) {a b : Pos}
    (ha : a.1 < g.width ∧ a.2 < g.height) (h : Adj g a b) : Adj g b a := by
  obtain ⟨d, hfn, hw⟩ := h
  refine ⟨compliment d, find_neighbor_inv ha hfn, ?_⟩
  have hs := hsym a.1 ha.1 a.2 ha.2 d b (by rw [Option.mem_def]; exact hfn)
  rw [← hs]
  exact hw

theorem reach_symm {g : Grid} (hsym : WallSym g) {a b : Pos}
    (ha : a.1 < g.width ∧ a.2 < g.height) (h : Reach g a b) : Reach g b a := by
  induction h with
  | refl => exact Relation.ReflTransGen.refl
  | tail h1 h2 ih =>
    exact Relation.ReflTransGen.head (adj_symm hsym (reach_bounds ha h1) h2) ih

theorem greach_row (g : Grid) (hh : 0 < g.height) :
    ∀ x, x < g.width → GReach g (0, 0) (x, 0) := by
  intro x
  induction x with
  | zero => intro _; exact Relation.ReflTransGen.refl
  | succ i ih =>
    intro hx
    refine Relation.ReflTransGen.tail (ih (by omega)) ?_
    refine ⟨Dir.E, ?_⟩
    simp only [find_neighbor]
    rw [if_pos ⟨hx, hh⟩]

theorem greach_col (g : Grid) (x : Nat) (hx : x < g.width) :
    ∀ y, y < g.height → GReach g (x, 0) (x, y) := by
  intro y
  induction y with
  | zero => intro _; exact Relation.ReflTransGen.refl
  | succ j ih =>
    intro hy
    refine Relation.ReflTransGen.tail (ih (by omega)) ?_
    refine ⟨Dir.S, ?_⟩
    simp only [find_neighbor]
    rw [if_pos ⟨hy, hx⟩]

theorem grid_connected (g : Grid) {u : Pos}
    (hu : u.1 < g.width ∧ u.2 < g.height) : GReach g (0, 0) u := by
  have h1 : GReach g (0, 0) (u.1, 0) :=
    greach_row g (by omega) u.1 hu.1
  have h2 : GReach g (u.1, 0) (u.1, u.2) :=
    greach_col g u.1 hu.1 u.2 hu.2
  exact h1.trans h2

theorem exists_boundary {g : Grid} {a u : Pos} (hpath : GReach g a u)
    (ha : a ∈ VisitedSet g) :
    u ∉ VisitedSet g →
      ∃ v ∈ VisitedSet g, ∃ (d : Dir) (q : Pos),
        find_neighbor g v d = some q ∧ q ∉ VisitedSet g := by
  induction hpath with
  | refl => intro hu; exact absurd ha hu
  | tail h1 h2 ih =>
    rename_i b c
    intro hu
    by_cases hc : b ∈ VisitedSet g
    · obtain ⟨d, hfn⟩ := h2
      exact ⟨b, hc, d, c, hfn, hu⟩
    · exact ih hc

theorem find_unused_complete {g : Grid} {p q : Pos} {d : Dir}
    (hfn : find_neighbor g p d = some q)
    (hdisc : is_completely_disconnected g q = true) :
    (d, q) ∈ find_unused_neighbors g p := by
  unfold find_unused_neighbors
  rw [List.mem_filter]
  exact ⟨mem_get_valid_neighbors.mpr hfn, hdisc⟩

theorem carveInv_step {w h : Nat} {s : CarveState} (hinv : CarveInv w h s)
    {pick : Dir × Pos} (hmem : pick ∈ find_unused_neighbors s.g s.current)
    (k' : Nat) :
    CarveInv w h ⟨remove_wall s.g s.current pick.2 pick.1,
      s.current :: s.stack, pick.2, s.visited + 1, k'⟩ := by
  obtain ⟨hW, hH, hsym, hcur, hstk, hvis, hcnt, hreach, hfront, hinit⟩ := hinv
  obtain ⟨hfn, hdisc⟩ := mem_find_unused hmem
  have hcb : s.current.1 < s.g.width ∧ s.current.2 < s.g.height :=
    (mem_VisitedSet.mp hcur).1
  have hqne0 : pick.2 ≠ (0, 0) := by
    rcases hinit with hd0 | ⟨hc0, _, _⟩
    · intro he
      rw [he] at hdisc
      rw [hdisc] at hd0
      exact absurd hd0 (by decide)
    · intro he
      have hne := find_neighbor_ne hfn
      rw [he, hc0] at hne
      exact hne rfl
  have hqnotvs : pick.2 ∉ VisitedSet s.g := not_mem_VisitedSet_of_disc hdisc hqne0
  have hVS : VisitedSet (remove_wall s.g s.current pick.2 pick.1)
      = insert pick.2 (VisitedSet s.g) :=
    VisitedSet_insert s.g s.current pick.2 pick.1 hfn hcur hqne0
  have hqwn : s.g.walls pick.2.1 pick.2.2 (compliment pick.1) = WallKind.normal :=
    (disc_iff s.g pick.2).mp hdisc (compliment pick.1)
  have hpw : s.g.walls s.current.1 s.current.2 pick.1 ≠ WallKind.absent := by
    have hs := hsym s.current.1 hcb.1 s.current.2 hcb.2 pick.1 pick.2
      (by rw [Option.mem_def]; exact hfn)
    rw [hs, hqwn]
    decide
  have hqw : s.g.walls pick.2.1 pick.2.2 (compliment pick.1) ≠ WallKind.absent := by
    rw [hqwn]
    decide
  refine ⟨hW, hH, wallSym_remove_wall hsym hcb hfn, ?_, ?_, ?_, ?_, ?_, ?_, ?_⟩
  · show pick.2 ∈ VisitedSet (remove_wall s.g s.current pick.2 pick.1)
    rw [hVS]
    exact Finset.mem_insert_self _ _
  · show ∀ p ∈ s.current :: s.stack,
      p ∈ VisitedSet (remove_wall s.g s.current pick.2 pick.1)
    intro p hp
    rw [hVS]
    rcases List.mem_cons.mp hp with he | hm
    · subst he
      exact Finset.mem_insert_of_mem hcur
    · exact Finset.mem_insert_of_mem (hstk p hm)
  · show s.visited + 1
      = (VisitedSet (remove_wall s.g s.current pick.2 pick.1)).card
    rw [hVS, Finset.card_insert_of_not_mem hqnotvs, ← hvis]
  · show absentSharedCount (remove_wall s.g s.current pick.2 pick.1) + 1
      = s.visited + 1
    rw [absentSharedCount_remove_wall s.g s.current pick.2 pick.1 hcb hfn hpw hqw]
    omega
  · show ∀ p ∈ VisitedSet (remove_wall s.g s.current pick.2 pick.1),
      Reach (remove_wall s.g s.current pick.2 pick.1) (0, 0) p
    intro p hp
    rw [hVS] at hp
    rcases Finset.mem_insert.mp hp with he | hm
    · subst he
      exact Relation.ReflTransGen.tail
        (reach_remove_wall_mono _ _ _ (hreach s.current hcur))
        (adj_remove_wall_new hfn)
    · exact reach_remove_wall_mono _ _ _ (hreach p hm)
  · show ∀ p ∈ VisitedSet (remove_wall s.g s.current pick.2 pick.1),
      p ∉ pick.2 :: s.current :: s.stack →
      ∀ (d : Dir) (q : Pos),
        find_neighbor (remove_wall s.g s.current pick.2 pick.1) p d = some q →
        q ∈ VisitedSet (remove_wall s.g s.current pick.2 pick.1)
    intro p hp hnot d q hfnq
    rw [hVS] at hp ⊢
    rw [find_neighbor_remove_wall] at hfnq
    rcases Finset.mem_insert.mp hp with he | hm
    · subst he
      exact absurd (List.mem_cons_self _ _) hnot
    · have hnot2 : p ∉ s.current :: s.stack :=
        fun hc => hnot (List.mem_cons_of_mem _ hc)
      exact Finset.mem_insert_of_mem (hfront p hm hnot2 d q hfnq)
  · show is_completely_disconnected
        (remove_wall s.g s.current pick.2 pick.1) (0, 0) = false ∨ _
    left
    rcases hinit with hd0 | ⟨hc0, _, _⟩
    · exact disc_false_mono _ _ _ hd0
    · exact @disc_false_of_wall _ ((0, 0) : Pos) pick.1
        (by rw [← hc0, remove_wall_self_absent]; decide)

theorem carveInv_pop {w h : Nat} {s : CarveState} (hinv : CarveInv w h s)
    {c : Pos} {rest : List Pos} (hstk : s.stack = c :: rest)
    (hfu : find_unused_neighbors s.g s.current = []) :
    CarveInv w h ⟨s.g, rest, c, s.visited, s.k⟩ := by
  obtain ⟨hW, hH, hsym, hcur, hstkmem, hvis, hcnt, hreach, hfront, hinit⟩ := hinv
  refine ⟨hW, hH, hsym, ?_, ?_, hvis, hcnt, hreach, ?_, ?_⟩
  · exact hstkmem c (by rw [hstk]; exact List.mem_cons_self _ _)
  · intro p hp
    exact hstkmem p (by rw [hstk]; exact List.mem_cons_of_mem _ hp)
  · show ∀ p ∈ VisitedSet s.g, p ∉ c :: rest →
      ∀ (d : Dir) (q : Pos), find_neighbor s.g p d = some q →
        q ∈ VisitedSet s.g
    intro p hp hnot d q hfnq
    by_cases hpc : p = s.current
    · subst hpc
      by_contra hq
      have hqb := find_neighbor_bounds hfnq
      have hdq : is_completely_disconnected s.g q = true := by
        rcases hdx : is_completely_disconnected s.g q with _ | _
        · exact absurd (mem_VisitedSet.mpr ⟨hqb, Or.inl hdx⟩) hq
        · rfl
      have hmemq := find_unused_complete hfnq hdq
      rw [hfu] at hmemq
      exact absurd hmemq (List.not_mem_nil _)
    · have hnot2 : p ∉ s.current :: s.stack := by
        rw [hstk]
        intro hc2
        rcases List.mem_cons.mp hc2 with he | hm
        · exact hpc he
        · exact hnot hm
      exact hfront p hp hnot2 d q hfnq
  · rcases hinit with hd0 | ⟨_, hs0, _⟩
    · exact Or.inl hd0
    · rw [hs0] at hstk
      exact absurd hstk (by simp)

theorem carveLoop_total (rng : Nat → Nat) : ∀ (fuel w h : Nat) (s : CarveState),
    CarveInv w h s →
    2 * (w * h - s.visited) + s.stack.length + 1 ≤ fuel →
    ∃ s2, carveLoop rng fuel s = some s2 ∧ CarveInv w h s2 ∧
      s2.visited = w * h := by
  intro fuel
  induction fuel with
  | zero =>
    intro w h s hinv hf
    exact absurd hf (by omega)
  | succ fuel ih =>
    intro w h s hinv hf
    by_cases hv : s.visited < s.g.width * s.g.height
    · cases hfu : find_unused_neighbors s.g s.current with
      | nil =>
        cases hstk : s.stack with
        | nil =>
          exfalso
          obtain ⟨hW, hH, hsym, hcur, hstkm, hvis, hcnt, hreach, hfront, hinit⟩ :=
            hinv
          have hvlt : (VisitedSet s.g).card < s.g.width * s.g.height := by
            rw [← hvis]
            exact hv
          have hss : VisitedSet s.g
              ⊂ Finset.range s.g.width ×ˢ Finset.range s.g.height := by
            refine ⟨Finset.filter_subset _ _, ?_⟩
            intro hsup
            have hcard := Finset.card_le_card hsup
            rw [Finset.card_product, Finset.card_range, Finset.card_range] at hcard
            omega
          obtain ⟨u, hu_mem, hu_not⟩ := Finset.exists_of_ssubset hss
          rw [Finset.mem_product, Finset.mem_range, Finset.mem_range] at hu_mem
          have hgp : GReach s.g (0, 0) u := grid_connected s.g hu_mem
          have h00 : ((0, 0) : Pos) ∈ VisitedSet s.g :=
            zero_mem_VisitedSet (by omega) (by omega)
          obtain ⟨v, hv_mem, d, q, hfnq, hq_not⟩ :=
            exists_boundary hgp h00 hu_not
          by_cases hvc : v = s.current
          · subst hvc
            have hqb := find_neighbor_bounds hfnq
            have hdq : is_completely_disconnected s.g q = true := by
              rcases hdx : is_completely_disconnected s.g q with _ | _
              · exact absurd (mem_VisitedSet.mpr ⟨hqb, Or.inl hdx⟩) hq_not
              · rfl
            have hmemq := find_unused_complete hfnq hdq
            rw [hfu] at hmemq
            exact absurd hmemq (List.not_mem_nil _)
          · have hnot2 : v ∉ s.current :: s.stack := by
              rw [hstk]
              intro hc2
              rcases List.mem_cons.mp hc2 with he | hm
              · exact hvc he
              · exact absurd hm (List.not_mem_nil _)
            exact hq_not (hfront v hv_mem hnot2 d q hfnq)
        | cons c rest =>
          have hinv2 := carveInv_pop hinv hstk hfu
          have hf2 : 2 * (w * h - s.visited) + rest.length + 1 ≤ fuel := by
            rw [hstk] at hf
            simp only [List.length_cons] at hf
            omega
          obtain ⟨s2, hrun, hinv3, hvfin⟩ := ih w h _ hinv2 hf2
          refine ⟨s2, ?_, hinv3, hvfin⟩
          rw [carveLoop, if_pos hv, hfu, hstk]
          exact hrun
      | cons n0 ns =>
        have hmem : (n0 :: ns).getD (rng s.k % (n0 :: ns).length) n0
            ∈ find_unused_neighbors s.g s.current := by
          rw [hfu]
          exact getD_mem_of_default_mem _ (List.mem_cons_self _ _)
        have hinv2 := carveInv_step hinv hmem (s.k + 1)
        have hvlt : s.visited < w * h := by
          have hv2 := hv
          rw [hinv.1, hinv.2.1] at hv2
          exact hv2
        have hf2 : 2 * (w * h - (s.visited + 1))
            + (s.current :: s.stack).length + 1 ≤ fuel := by
          simp only [List.length_cons]
          omega
        obtain ⟨s2, hrun, hinv3, hvfin⟩ := ih w h _ hinv2 hf2
        refine ⟨s2, ?_, hinv3, hvfin⟩
        rw [carveLoop, if_pos hv, hfu]
        dsimp only
        exact hrun
    · refine ⟨s, ?_, hinv, ?_⟩
      · rw [carveLoop, if_neg hv]
      · have hle := VisitedSet_card_le s.g
        have hvis := hinv.2.2.2.2.2.1
        have hv2 := hv
        rw [hinv.1, hinv.2.1] at hle hv2
        omega

theorem disc_init (w h : Nat) (p : Pos) :
    is_completely_disconnected (initGrid w h) p = true :=
  (disc_iff (initGrid w h) p).mpr (fun _ => rfl)

theorem VisitedSet_init (w h : Nat) (hw : 1 ≤ w) (hh : 1 ≤ h) :
    VisitedSet (initGrid w h) = {((0, 0) : Pos)} := by
  ext p
  rw [mem_VisitedSet, Finset.mem_singleton]
  constructor
  · rintro ⟨_, hd | he⟩
    · rw [disc_init] at hd
      exact absurd hd (by decide)
    · exact he
  · intro he
    subst he
    exact ⟨⟨hw, hh⟩, Or.inr rfl⟩

theorem absentSharedCount_init (w h : Nat) :
    absentSharedCount (initGrid w h) = 0 := by
  unfold absentSharedCount
  refine Finset.sum_eq_zero ?_
  intro p hp
  rw [if_neg (fun hc => WallKind.noConfusion hc.2),
    if_neg (fun hc => WallKind.noConfusion hc.2)]
  rfl

theorem carveInv_init (w h : Nat) (hw : 1 ≤ w) (hh : 1 ≤ h) (k : Nat) :
    CarveInv w h ⟨initGrid w h, [], (0, 0), 1, k⟩ := by
  have hvs := VisitedSet_init w h hw hh
  refine ⟨rfl, rfl, wallSym_init w h, ?_, ?_, ?_, ?_, ?_, ?_, ?_⟩
  · show ((0, 0) : Pos) ∈ VisitedSet (initGrid w h)
    rw [hvs]
    exact Finset.mem_singleton_self _
  · intro p hp
    exact absurd hp (List.not_mem_nil _)
  · show 1 = (VisitedSet (initGrid w h)).card
    rw [hvs, Finset.card_singleton]
  · show absentSharedCount (initGrid w h) + 1 = 1
    rw [absentSharedCount_init]
  · show ∀ p ∈ VisitedSet (initGrid w h), Reach (initGrid w h) (0, 0) p
    intro p hp
    rw [hvs, Finset.mem_singleton] at hp
    subst hp
    exact Relation.ReflTransGen.refl
  · show ∀ p ∈ VisitedSet (initGrid w h), p ∉ [((0, 0) : Pos)] → _
    intro p hp hnot
    rw [hvs, Finset.mem_singleton] at hp
    subst hp
    exact absurd (List.mem_cons_self _ _) hnot
  · exact Or.inr ⟨rfl, rfl, rfl⟩

/-- C9 (amended): no configuration is validated up front — generation begins
regardless.  On a w×h grid with w, h ≥ 2 and a (non-negative) walk start out
of bounds, the carve stage itself succeeds — the grid has already been
mutated — and the pipeline first fails at the walk stage, where the start
cell is first looked up, producing no grid; whereas when W < 1 or H < 1 the
failure is instead the initial `cell_at(0, 0)` lookup inside the carve stage,
before any carving. -/
theorem c9_amended_fails_at_walk_stage (rng : Nat → Nat) (w h sx sy mn mx : Nat)
    (hw : 2 ≤ w) (hh : 2 ≤ h) (hb : w ≤ sx ∨ h ≤ sy) :
    (∃ (g1 : Grid) (k1 : Nat),
      make_all_cells_reachable rng w h 0 = some (g1, k1) ∧
      dfs_walk g1 sx sy = none) ∧
    pipeline rng w h sx sy mn mx = none ∧
    (∀ w2 h2 : Nat, w2 < 1 ∨ h2 < 1 →
      make_all_cells_reachable rng w2 h2 0 = none) := by
  have hinit := carveInv_init w h (by omega) (by omega) 0
  obtain ⟨s2, hrun, hinv2, hvfin⟩ :=
    carveLoop_total rng (2 * (w * h) + 1) w h _ hinit
      (by show 2 * (w * h - 1) + 0 + 1 ≤ 2 * (w * h) + 1; omega)
  have hmk : make_all_cells_reachable rng w h 0 = some (s2.g, s2.k) := by
    unfold make_all_cells_reachable
    rw [cell_at_zero_pos w h (by omega) (by omega)]
    show (carveLoop rng (2 * (w * h) + 1)
        ⟨initGrid w h, [], (0, 0), 1, 0⟩).map (fun s => (s.g, s.k))
        = some (s2.g, s2.k)
    rw [hrun]
    rfl
  have hwalk : dfs_walk s2.g sx sy = none := by
    unfold dfs_walk
    have hc : cell_at s2.g sx sy = none := by
      unfold cell_at
      have hno : ¬ (sx < s2.g.width ∧ sy < s2.g.height) := by
        rw [hinv2.1, hinv2.2.1]
        omega
      rw [if_neg hno]
    rw [hc]
  refine ⟨⟨s2.g, s2.k, hmk, hwalk⟩, ?_, ?_⟩
  · unfold pipeline
    rw [hmk]
    dsimp only
    rw [hwalk]
  · intro w2 h2 hlt
    unfold make_all_cells_reachable
    rw [cell_at_zero_none w2 h2 hlt]
    rfl

theorem c9_amended_witness :
    ((2 ≤ 2) ∧ (2 ≤ 2) ∧ (2 ≤ 5 ∨ (2 : Nat) ≤ 0)) ∧
    ((∃ (g1 : Grid) (k1 : Nat),
        make_all_cells_reachable rngZ 2 2 0 = some (g1, k1) ∧
        dfs_walk g1 5 0 = none) ∧
      pipeline rngZ 2 2 5 0 1 2 = none ∧
      (∀ w2 h2 : Nat, w2 < 1 ∨ h2 < 1 →
        make_all_cells_reachable rngZ w2 h2 0 = none)) :=
  ⟨⟨by decide, by decide, Or.inl (by decide)⟩,
   c9_amended_fails_at_walk_stage rngZ 2 2 5 0 1 2 (by decide) (by decide)
     (Or.inl (by decide))⟩

/-- C1: after `make_all_cells_reachable` runs on a freshly constructed w×h
grid (w ≥ 2, h ≥ 2, all walls normal), it succeeds, every pair of in-bounds
cells is mutually reachable, and the number of shared walls whose kind is
absent is exactly w*h − 1: a spanning tree. -/
theorem c1_carve_spanning_tree (rng : Nat → Nat) (w h k : Nat)
    (hw : 2 ≤ w) (hh : 2 ≤ h) :
    ∃ (g : Grid) (k2 : Nat),
      make_all_cells_reachable rng w h k = some (g, k2) ∧
      (∀ a b : Pos, a.1 < w → a.2 < h → b.1 < w → b.2 < h →
        is_reachable g a b = true) ∧
      absentSharedCount g = w * h - 1 := by
  have hinit := carveInv_init w h (by omega) (by omega) k
  obtain ⟨s2, hrun, hinv2, hvfin⟩ :=
    carveLoop_total rng (2 * (w * h) + 1) w h _ hinit
      (by show 2 * (w * h - 1) + 0 + 1 ≤ 2 * (w * h) + 1; omega)
  obtain ⟨hW, hH, hsym, hcur, hstkm, hvis, hcnt, hreach, hfront, hinit2⟩ := hinv2
  have hfull : VisitedSet s2.g
      = Finset.range s2.g.width ×ˢ Finset.range s2.g.height := by
    apply Finset.eq_of_subset_of_card_le (Finset.filter_subset _ _)
    have hc2 : s2.g.width * s2.g.height = (VisitedSet s2.g).card := by
      rw [hW, hH, ← hvfin, hvis]
    rw [Finset.card_product, Finset.card_range, Finset.card_range, hc2]
    exact Nat.le_refl _
  refine ⟨s2.g, s2.k, ?_, ?_, ?_⟩
  · unfold make_all_cells_reachable
    rw [cell_at_zero_pos w h (by omega) (by omega)]
    show (carveLoop rng (2 * (w * h) + 1)
        ⟨initGrid w h, [], (0, 0), 1, k⟩).map (fun s => (s.g, s.k))
        = some (s2.g, s2.k)
    rw [hrun]
    rfl
  · intro a b ha1 ha2 hb1 hb2
    have hamem : a ∈ VisitedSet s2.g := by
      rw [hfull, Finset.mem_product, Finset.mem_range, Finset.mem_range, hW, hH]
      exact ⟨ha1, ha2⟩
    have hbmem : b ∈ VisitedSet s2.g := by
      rw [hfull, Finset.mem_product, Finset.mem_range, Finset.mem_range, hW, hH]
      exact ⟨hb1, hb2⟩
    have h0bd : ((0, 0) : Pos).1 < s2.g.width ∧ ((0, 0) : Pos).2 < s2.g.height := by
      refine ⟨?_, ?_⟩
      · show 0 < s2.g.width
        rw [hW]
        omega
      · show 0 < s2.g.height
        rw [hH]
        omega
    have haz : Reach s2.g a (0, 0) := reach_symm hsym h0bd (hreach a hamem)
    have hab : Reach s2.g a b := haz.trans (hreach b hbmem)
    exact reach_is_reachable
      ⟨by rw [hW]; exact ha1, by rw [hH]; exact ha2⟩ hab
  · omega

/-- Witness for C1: the 2×2 grid with the all-zero stream. -/
theorem c1_carve_spanning_tree_witness :
    (2 ≤ 2) ∧ ∃ (g : Grid) (k2 : Nat),
      make_all_cells_reachable rngZ 2 2 0 = some (g, k2) ∧
      (∀ a b : Pos, a.1 < 2 → a.2 < 2 → b.1 < 2 → b.2 < 2 →
        is_reachable g a b = true) ∧
      absentSharedCount g = 2 * 2 - 1 :=
  ⟨by decide, c1_carve_spanning_tree rngZ 2 2 0 (by decide) (by decide)⟩
